import Mathlib

set_option maxHeartbeats 1000000

/-
Verification of the cnode configuration-tree comparison and command
extraction algorithms (public contract in src/cnode/cnode-algorithm.hpp).
The repository ships only the header; every algorithm below is modelled
from the specification document's description of the data model (§3), the
tree differ (§4.1), the command extractor (§4.2) and the diff renderer
(§4.3), and the claims are settled against that model.
-/


namespace Cnode

/-- Modelled from the spec: the `CfgNode` tree vertex of §3 (the
implementation of `cnode.hpp` is not part of the sources): a name, an
ordered multi-value leaf content, an optional comment, the three status
flags, and the list of children (keys unique among siblings). -/
inductive CfgNode : Type where
  | mk (name : String) (values : List String) (comment : Option String)
       (is_deactivated : Bool) (is_default : Bool) (is_secret : Bool)
       (children : List CfgNode) : CfgNode

def CfgNode.name : CfgNode → String
  | .mk n _ _ _ _ _ _ => n

def CfgNode.values : CfgNode → List String
  | .mk _ v _ _ _ _ _ => v

def CfgNode.comment : CfgNode → Option String
  | .mk _ _ c _ _ _ _ => c

def CfgNode.deact : CfgNode → Bool
  | .mk _ _ _ d _ _ _ => d

def CfgNode.dflt : CfgNode → Bool
  | .mk _ _ _ _ df _ _ => df

def CfgNode.secretMark : CfgNode → Bool
  | .mk _ _ _ _ _ sc _ => sc

def CfgNode.children : CfgNode → List CfgNode
  | .mk _ _ _ _ _ _ ch => ch

/-- Name-keyed lookup in a sibling list (the ordered-map abstraction of §9). -/
def lookupChild (cs : List CfgNode) (s : String) : Option CfgNode :=
  cs.find? (fun c => c.name == s)

mutual

/-- Well-formedness invariant of §3: a node's children keys are unique,
recursively. -/
def wf : CfgNode → Bool
  | .mk _ _ _ _ _ _ ch => (ch.map CfgNode.name).Nodup && wfList ch

def wfList : List CfgNode → Bool
  | [] => true
  | c :: cs => wf c && wfList cs
end

/-- Four-way per-node classification of §3 / §9. -/
inductive Status : Type where
  | unchanged | added | deleted | changed
deriving Repr, DecidableEq

/-- Equality of the value multisets as sets (§3: "the *set* of values, not
position, determines equality for diff purposes"). -/
def valsEq (xs ys : List String) : Bool :=
  xs.all (fun v => ys.contains v) && ys.all (fun v => xs.contains v)

/-- Modelled from the spec: a node of the ephemeral Diff Result of §3 — a
status, the set-difference of values, whether the comment changed and the
target-side comment, the attached subtree for `Added` nodes, the display
data the renderer needs (shown values, secret/default flags), and the
recursively diffed children. -/
inductive DiffNode : Type where
  | mk (name : String) (status : Status)
       (removeVals addVals : List String)
       (commentChanged : Bool) (newComment : Option String)
       (addedNode : Option CfgNode)
       (shownVals : List String) (secret : Bool) (dflt : Bool)
       (children : List DiffNode) : DiffNode

def dName : DiffNode → String
  | .mk n _ _ _ _ _ _ _ _ _ _ => n

def dStatus : DiffNode → Status
  | .mk _ st _ _ _ _ _ _ _ _ _ => st

def dRemove : DiffNode → List String
  | .mk _ _ rem _ _ _ _ _ _ _ _ => rem

def dAdd : DiffNode → List String
  | .mk _ _ _ add _ _ _ _ _ _ _ => add

def dChildren : DiffNode → List DiffNode
  | .mk _ _ _ _ _ _ _ _ _ _ ch => ch

/-- Diff-result node for a child present only in the first tree (§4.1:
status `Deleted`, no recursion into its subtree). -/
def delDiff (c : CfgNode) : DiffNode :=
  .mk c.name .deleted [] [] false none none c.values c.secretMark c.dflt []

/-- Diff-result node for a child present only in the second tree (§4.1:
status `Added`; the subtree is carried for the extractor). -/
def addDiff (c : CfgNode) : DiffNode :=
  .mk c.name .added [] [] false none (some c) c.values c.secretMark c.dflt []

/-- Own-content comparison of a matched pair (§4.1: values as a set, the
comment, and the deactivation state, which "is part of comparable state"). -/
def leafEq (a b : CfgNode) : Bool :=
  valsEq a.values b.values && (a.comment == b.comment) && (a.deact == b.deact)

/-- Modelled from the spec: the recursive Tree Differ of §4.1 (its
implementation file is absent from the sources). A matched pair is
`Unchanged` or `Changed` by own content; the children of the two sides are
paired by name over the union of names — first tree's order first (matched
pairs recursed, names only in the first tree marked `Deleted`), then the
names only in the second tree in its order, marked `Added`. The
set-difference of values and the comment change are recorded. -/
def diffNodes : CfgNode → CfgNode → DiffNode
  | a@(.mk an _ _ _ _ _ ach), b =>
    let fromA := ach.attach.map (fun x =>
      match lookupChild b.children x.1.name with
      | some c2 => diffNodes x.1 c2
      | none => delDiff x.1)
    let fromB := (b.children.filter
      (fun c => (lookupChild ach c.name).isNone)).map addDiff
    .mk an (if leafEq a b then .unchanged else .changed)
      (a.values.filter (fun v => !(b.values.contains v)))
      (b.values.filter (fun v => !(a.values.contains v)))
      (a.comment != b.comment) b.comment none
      b.values b.secretMark b.dflt (fromA ++ fromB)
termination_by a => sizeOf a
decreasing_by
  have h1 := List.sizeOf_lt_of_mem x.2
  simp only [CfgNode.mk.sizeOf_spec]
  omega

/-- Modelled from the spec: a Command of §3 — "an ordered sequence of
path-segment strings (the node path) optionally followed by a value or
comment string". The `vector<string>` of the header is `Cmd.flat`. -/
structure Cmd : Type where
  path : List String
  arg : Option String
deriving Repr, DecidableEq

def Cmd.flat (c : Cmd) : List String := c.path ++ c.arg.toList

abbrev Cmds2 := List Cmd × List Cmd

abbrev Cmds3 := List Cmd × List Cmd × List Cmd

def cat2 (x y : Cmds2) : Cmds2 := (x.1 ++ y.1, x.2 ++ y.2)

def cat3 (x y : Cmds3) : Cmds3 := (x.1 ++ y.1, x.2.1 ++ y.2.1, x.2.2 ++ y.2.2)

mutual

/-- Modelled from the spec: the `Added`-subtree emission of §4.2 — set
commands for every value at the node's path `p` (or a single
set-with-no-value for a pure container), a comment command if the comment
is non-empty, then the children, pre-order. -/
def addCmds : List String → CfgNode → Cmds2
  | p, .mk _ vs cm _ _ _ ch =>
    cat2 ((if vs = [] then [⟨p, none⟩] else vs.map (fun v => ⟨p, some v⟩)),
          (match cm with | some c => [⟨p, some c⟩] | none => []))
         (addCmdsList p ch)

def addCmdsList : List String → List CfgNode → Cmds2
  | _, [] => ([], [])
  | p, c :: cs => cat2 (addCmds (p ++ [c.name]) c) (addCmdsList p cs)
end

mutual

/-- Modelled from the spec: the Command Extractor of §4.2 over a diff
result. `Deleted` at path `p` emits one delete for `p` and nothing for the
subtree; `Added` emits the whole subtree as set/comment commands;
`Changed` emits one delete per removed value, one set per added value and
a comment command if the comment changed, then recurses; `Unchanged`
recurses only. Commands appear in pre-order traversal order. -/
def extractD : List String → DiffNode → Cmds3
  | p, .mk _ st rem add cch ncm addedN _ _ _ ch =>
    match st with
    | .deleted => ([⟨p, none⟩], [], [])
    | .added =>
      match addedN with
      | some t => let x := addCmds p t; ([], x.1, x.2)
      | none => ([], [], [])
    | _ =>
      cat3 (rem.map (fun v => ⟨p, some v⟩),
            add.map (fun v => ⟨p, some v⟩),
            if cch then [⟨p, ncm⟩] else [])
           (extractDList p ch)

def extractDList : List String → List DiffNode → Cmds3
  | _, [] => ([], [], [])
  | p, d :: ds =>
    cat3 (extractD (p ++ [dName d]) d) (extractDList p ds)
end

/-- Modelled from the spec: `get_cmds_diff` of the header — the Tree
Differ composed with the Command Extractor, giving the delete, set and
comment sequences that transform the first tree into the second. -/
def get_cmds_diff (cfg1 cfg2 : CfgNode) : Cmds3 :=
  extractD [] (diffNodes cfg1 cfg2)

/-- Modelled from the spec: the single-tree form `get_cmds` of §4.2 —
walks one tree unconditionally and emits its full content as set and
comment commands. -/
def get_cmds (cfg : CfgNode) : Cmds2 :=
  cat2 (cfg.values.map (fun v => ⟨[], some v⟩),
        match cfg.comment with | some c => [⟨[], some c⟩] | none => [])
       (addCmdsList [] cfg.children)

def emptyNode (s : String) : CfgNode := .mk s [] none false false false []

def addValue (vs : List String) (v : String) : List String :=
  if vs.contains v then vs else vs ++ [v]

/-- Modelled from the spec: the command-execution collaborator's delete
(§6) — a path ending in a value removes that value from the leaf, a node
path removes the node and its subtree; a missing path is a no-op. -/
def applyDelete : CfgNode → List String → Option String → CfgNode
  | .mk n vs cm d df sc ch, [], some v =>
    .mk n (vs.filter (fun w => w ≠ v)) cm d df sc ch
  | t, [], none => t
  | .mk n vs cm d df sc ch, [s], none =>
    .mk n vs cm d df sc (ch.filter (fun c => c.name ≠ s))
  | .mk n vs cm d df sc ch, s :: q :: r, arg =>
    .mk n vs cm d df sc
      (ch.map (fun c => if c.name = s then applyDelete c (q :: r) arg else c))
  | .mk n vs cm d df sc ch, [s], some v =>
    .mk n vs cm d df sc
      (ch.map (fun c => if c.name = s then applyDelete c [] (some v) else c))

/-- Modelled from the spec: the command-execution collaborator's set (§6)
— establishes a leaf value (or a bare node for a valueless set), creating
the intermediate nodes of the path as needed. -/
def applySet : CfgNode → List String → Option String → CfgNode
  | .mk n vs cm d df sc ch, [], some v => .mk n (addValue vs v) cm d df sc ch
  | t, [], none => t
  | .mk n vs cm d df sc ch, s :: r, arg =>
    if (lookupChild ch s).isSome then
      .mk n vs cm d df sc
        (ch.map (fun c => if c.name = s then applySet c r arg else c))
    else
      .mk n vs cm d df sc (ch ++ [applySet (emptyNode s) r arg])

/-- Modelled from the spec: the command-execution collaborator's comment
(§6) — attaches or replaces the comment of the node at the path; a missing
path is a no-op. -/
def applyComment : CfgNode → List String → Option String → CfgNode
  | .mk n vs _ d df sc ch, [], arg => .mk n vs arg d df sc ch
  | .mk n vs cm d df sc ch, s :: r, arg =>
    .mk n vs cm d df sc
      (ch.map (fun c => if c.name = s then applyComment c r arg else c))

def applyCmds (f : CfgNode → List String → Option String → CfgNode)
    (t : CfgNode) (cs : List Cmd) : CfgNode :=
  cs.foldl (fun u c => f u c.path c.arg) t

/-- Application protocol of §6: all deletes, then all sets, then all
comments, as three separate passes. -/
def apply3 (t : CfgNode) (cs : Cmds3) : CfgNode :=
  applyCmds applyComment (applyCmds applySet (applyCmds applyDelete t cs.1) cs.2.1) cs.2.2

/-- Tree-equality relation of the round-trip property: same children
sets, same values sets and same comments at every path; with `fl = true`
additionally the same three status flags at every path. -/
def treeEqF (fl : Bool) : CfgNode → CfgNode → Bool
  | a@(.mk _ _ _ _ _ _ ach), b =>
    valsEq a.values b.values && (a.comment == b.comment)
    && (!fl || (a.deact == b.deact && a.dflt == b.dflt && a.secretMark == b.secretMark))
    && ach.attach.all (fun x =>
         (lookupChild b.children x.1.name).any (fun c2 => treeEqF fl x.1 c2))
    && b.children.all (fun c => (lookupChild ach c.name).isSome)
termination_by a => sizeOf a
decreasing_by
  have h1 := List.sizeOf_lt_of_mem x.2
  simp only [CfgNode.mk.sizeOf_spec]
  omega

/-- Node lookup by path (a path uniquely identifies a node, §3). -/
def nodeAt : CfgNode → List String → Option CfgNode
  | t, [] => some t
  | t, s :: r =>
    match lookupChild t.children s with
    | some c => nodeAt c r
    | none => none

def lookupD (ds : List DiffNode) (s : String) : Option DiffNode :=
  ds.find? (fun d => dName d == s)

/-- Diff-result lookup by path. -/
def findD : DiffNode → List String → Option DiffNode
  | d, [] => some d
  | d, s :: r =>
    match lookupD (dChildren d) s with
    | some c => findD c r
    | none => none

mutual

/-- Check that a diff result classifies every node `Unchanged`. -/
def allUnchanged : DiffNode → Bool
  | .mk _ st _ _ _ _ _ _ _ _ ch => (st == Status.unchanged) && allUnchangedList ch

def allUnchangedList : List DiffNode → Bool
  | [] => true
  | d :: ds => allUnchanged d && allUnchangedList ds
end

mutual

/-- Whether a diff subtree contains any non-`Unchanged` node. -/
def hasChange : DiffNode → Bool
  | .mk _ st _ _ _ _ _ _ _ _ ch => (st != Status.unchanged) || hasChangeList ch

def hasChangeList : List DiffNode → Bool
  | [] => false
  | d :: ds => hasChange d || hasChangeList ds
end

/-- Rendered line of the Diff Renderer (§4.3): the node path, its status
marker and the displayed values (after any redaction). -/
structure RLine : Type where
  path : List String
  status : Status
  shown : List String
deriving Repr, DecidableEq

/-- Secret redaction of §4.3: replace the values of a secret leaf by a
fixed placeholder in text output when `hide_secret` is set. -/
def redact (hs : Bool) (sec : Bool) (vs : List String) : List String :=
  if hs && sec then vs.map (fun _ => "****") else vs

mutual

/-- Modelled from the spec: full-tree rendering mode of §4.3 — every node
of the diff result becomes one marked line, except that default nodes are
suppressed (with their subtree) unless `show_def` is set. -/
def renderFull (sd hs : Bool) : List String → DiffNode → List RLine
  | p, .mk _ st _ _ _ _ _ sv sec df ch =>
    if df && !sd then []
    else ⟨p, st, redact hs sec sv⟩ :: renderFullList sd hs p ch

def renderFullList (sd hs : Bool) : List String → List DiffNode → List RLine
  | _, [] => []
  | p, d :: ds =>
    renderFull sd hs (p ++ [dName d]) d ++ renderFullList sd hs p ds
end

mutual

/-- Modelled from the spec: context-diff rendering mode of §4.3 — only the
hunks that actually changed are rendered: a subtree with no changed node
at all is pruned, everything else is rendered as in full-tree mode (the
unchanged path leading to a changed node is kept as context). -/
def renderCtx (sd hs : Bool) : List String → DiffNode → List RLine
  | p, d =>
    if !hasChange d then []
    else
      match d with
      | .mk _ st _ _ _ _ _ sv sec df ch =>
        if df && !sd then []
        else ⟨p, st, redact hs sec sv⟩ :: renderCtxList sd hs p ch

def renderCtxList : Bool → Bool → List String → List DiffNode → List RLine
  | _, _, _, [] => []
  | sd, hs, p, d :: ds =>
    renderCtx sd hs (p ++ [dName d]) d ++ renderCtxList sd hs p ds
end

/-- Modelled from the spec: `show_cfg_diff` of the header — text rendering
of the diff of two trees below the current path, in full-tree or
context-diff mode. -/
def show_cfg_diff (cfg1 cfg2 : CfgNode) (cur_path : List String)
    (sd hs cd : Bool) : List RLine :=
  if cd then renderCtx sd hs cur_path (diffNodes cfg1 cfg2)
  else renderFull sd hs cur_path (diffNodes cfg1 cfg2)

/-- Modelled from the spec: `show_cfg` of the header — text rendering of a
single tree (every node `Unchanged`, no diff markers). -/
def show_cfg (cfg : CfgNode) (sd hs : Bool) : List RLine :=
  renderFull sd hs [] (diffNodes cfg cfg)

/-- Command-line text of §4.3: one "delete"/"set"/"comment" word followed
by the flattened command, one command per line, never redacted. -/
def cmdLines (cs : Cmds3) : List (List String) :=
  cs.1.map (fun c => "delete" :: c.flat)
  ++ cs.2.1.map (fun c => "set" :: c.flat)
  ++ cs.2.2.map (fun c => "comment" :: c.flat)

/-- Modelled from the spec: `show_cmds_diff` of the header — the command
sequences of `get_cmds_diff` rendered as flat lines. -/
def show_cmds_diff (cfg1 cfg2 : CfgNode) : List (List String) :=
  cmdLines (get_cmds_diff cfg1 cfg2)

/-- Modelled from the spec: `show_cmds` of the header — the command
sequences of `get_cmds` rendered as flat lines. -/
def show_cmds (cfg : CfgNode) : List (List String) :=
  cmdLines ([], get_cmds cfg)

/-- Output of `showConfig`: either diff text or command lines. -/
inductive Output : Type where
  | text (ls : List RLine)
  | cmds (ls : List (List String))
deriving Repr, DecidableEq

/-- Defaults of the optional arguments, read off the header's declaration
of `show_cfg_diff`/`showConfig`: `show_def = false`, `hide_secret =
false`, `context_diff = false`, `show_cmds = false`. -/
def headerDefaults : Bool × Bool × Bool × Bool := (false, false, false, false)

/-- Modelled from the spec: `showConfig` of the header — restricts both
trees to the subtree at `path`, then either renders the diff text (with
the requested flags) or the command list (never redacted). -/
def showConfig (cfg1 cfg2 : CfgNode) (path : List String)
    (sd hs cd sc : Bool) : Output :=
  let a := (nodeAt cfg1 path).getD (emptyNode "")
  let b := (nodeAt cfg2 path).getD (emptyNode "")
  if sc then .cmds (cmdLines (get_cmds_diff a b))
  else .text (show_cfg_diff a b path sd hs cd)

/-- Call of `showConfig` with every optional argument omitted, i.e. taking
the header's default values. -/
def showConfigDefault (cfg1 cfg2 : CfgNode) (path : List String) : Output :=
  showConfig cfg1 cfg2 path headerDefaults.1 headerDefaults.2.1
    headerDefaults.2.2.1 headerDefaults.2.2.2

/-- Call of `show_cfg_diff` with every optional argument omitted. -/
def show_cfg_diffDefault (cfg1 cfg2 : CfgNode) (cur_path : List String) : List RLine :=
  show_cfg_diff cfg1 cfg2 cur_path headerDefaults.1 headerDefaults.2.1 headerDefaults.2.2.1

/-- Call of `show_cfg` with every optional argument omitted. -/
def show_cfgDefault (cfg : CfgNode) : List RLine :=
  show_cfg cfg headerDefaults.1 headerDefaults.2.1

/-- Modelled from the spec: the comparison operations seen as state
transformers over the pair of input trees (§5: the core must not mutate
either input tree), so that absence of mutation is expressible: each
operation returns its result together with the trees it leaves behind. -/
def runGetCmdsDiff (st : CfgNode × CfgNode) : Cmds3 × (CfgNode × CfgNode) :=
  (get_cmds_diff st.1 st.2, st)

def runGetCmds (st : CfgNode) : Cmds2 × CfgNode :=
  (get_cmds st, st)

def runShowCfgDiff (st : CfgNode × CfgNode) (cur : List String)
    (sd hs cd : Bool) : List RLine × (CfgNode × CfgNode) :=
  (show_cfg_diff st.1 st.2 cur sd hs cd, st)

def runShowCfg (st : CfgNode) (sd hs : Bool) : List RLine × CfgNode :=
  (show_cfg st sd hs, st)

def runShowCmdsDiff (st : CfgNode × CfgNode) : List (List String) × (CfgNode × CfgNode) :=
  (show_cmds_diff st.1 st.2, st)

def runShowCmds (st : CfgNode) : List (List String) × CfgNode :=
  (show_cmds st, st)

def runShowConfig (st : CfgNode × CfgNode) (path : List String)
    (sd hs cd sc : Bool) : Output × (CfgNode × CfgNode) :=
  (showConfig st.1 st.2 path sd hs cd sc, st)

def pushCmd (s : String) (c : Cmd) : Cmd := ⟨s :: c.path, c.arg⟩

def push2 (s : String) (x : Cmds2) : Cmds2 :=
  (x.1.map (pushCmd s), x.2.map (pushCmd s))

def push3 (s : String) (x : Cmds3) : Cmds3 :=
  (x.1.map (pushCmd s), x.2.1.map (pushCmd s), x.2.2.map (pushCmd s))

def dAddedN : DiffNode → Option CfgNode
  | .mk _ _ _ _ _ _ an _ _ _ _ => an

def delXform (ds : List DiffNode) (x : CfgNode) : Option CfgNode :=
  match lookupD ds x.name with
  | some dd =>
    match dStatus dd with
    | .deleted => none
    | .added => some x
    | _ => some (applyCmds applyDelete x (extractD [] dd).1)
  | none => some x

def setXform (ds : List DiffNode) (x : CfgNode) : CfgNode :=
  match lookupD ds x.name with
  | some dd =>
    match dStatus dd with
    | .deleted => x
    | .added => x
    | _ => applyCmds applySet x (extractD [] dd).2.1
  | none => x

def comXform (ds : List DiffNode) (x : CfgNode) : CfgNode :=
  match lookupD ds x.name with
  | some dd =>
    match dStatus dd with
    | .deleted => x
    | .added =>
      match dAddedN dd with
      | some t => applyCmds applyComment x (addCmds [] t).2
      | none => x
    | _ => applyCmds applyComment x (extractD [] dd).2.2
  | none => x

def builds (ds : List DiffNode) : List CfgNode :=
  ds.filterMap (fun dd =>
    match dStatus dd, dAddedN dd with
    | .added, some t => some (applyCmds applySet (emptyNode (dName dd)) (addCmds [] t).1)
    | _, _ => none)

mutual

/-- Closed form of the tree a set/comment command block of §4.2 creates:
the values deduplicated in first-occurrence order, the comment, cleared
flags, and recursively built children. -/
def buildOf : CfgNode → CfgNode
  | .mk n vs cm _ _ _ ch => .mk n (vs.foldl addValue []) cm false false false (buildOfList ch)

def buildOfList : List CfgNode → List CfgNode
  | [] => []
  | c :: cs => buildOf c :: buildOfList cs
end

def matchedKid (b : CfgNode) (c : CfgNode) : DiffNode :=
  match lookupChild b.children c.name with
  | some c2 => diffNodes c c2
  | none => delDiff c

def dkidsA (ach : List CfgNode) (b : CfgNode) : List DiffNode :=
  ach.map (matchedKid b)

def dkidsB (ach : List CfgNode) (b : CfgNode) : List DiffNode :=
  (b.children.filter (fun c => (lookupChild ach c.name).isNone)).map addDiff

/-- Value multiset after the root-level delete and set commands of a
`Changed` pair: the values only in the first side removed, then the values
only in the second side appended. -/
def finalValsOf (av bv : List String) : List String :=
  (bv.filter (fun v => !(av.contains v))).foldl addValue
    ((av.filter (fun v => !(bv.contains v))).foldl
      (fun acc v => acc.filter (fun w => w ≠ v)) av)

/-- Closed form of applying the three command sequences of
`get_cmds_diff a b` to `a`: values and comment taken from the diff, flags
kept from `a`, deleted children dropped, matched children transformed
recursively, added children rebuilt from the second tree. -/
def applyResult : CfgNode → CfgNode → CfgNode
  | a@(.mk an _ _ _ _ _ ach), b =>
    .mk an (finalValsOf a.values b.values) b.comment a.deact a.dflt a.secretMark
      (((ach.attach.map (fun x =>
          match lookupChild b.children x.1.name with
          | some c2 => some (applyResult x.1 c2)
          | none => (none : Option CfgNode))).reduceOption)
       ++ (b.children.filter (fun c => (lookupChild ach c.name).isNone)).map buildOf)
termination_by a => sizeOf a
decreasing_by
  have h1 := List.sizeOf_lt_of_mem x.2
  simp only [CfgNode.mk.sizeOf_spec]
  omega

mutual

/-- Structural invariant of differ output: children names unique at every
level, and `Deleted`/`Added` nodes carry no recursive child diffs. -/
def dInv : DiffNode → Bool
  | .mk _ st _ _ _ _ _ _ _ _ ch =>
    ((ch.map dName).Nodup : Bool)
    && (!(st == Status.deleted) || ch.isEmpty)
    && (!(st == Status.added) || ch.isEmpty)
    && dInvList ch

def dInvList : List DiffNode → Bool
  | [] => true
  | d :: ds => dInv d && dInvList ds
end

def mem3 (cmd : Cmd) (cs : Cmds3) : Prop :=
  cmd ∈ cs.1 ∨ cmd ∈ cs.2.1 ∨ cmd ∈ cs.2.2

/-- Witness leaf child used by the concrete instances below. -/
def wX : CfgNode := .mk "x" ["1"] none false false false []

/-- Concrete tree with one child, for the delete-command instance. -/
def wA : CfgNode := .mk "root" [] none false false false [wX]

/-- The same root with the child removed. -/
def wB : CfgNode := .mk "root" [] none false false false []

/-- Tree that is deactivated at the root. -/
def cxA : CfgNode := .mk "root" [] none true false false []

/-- The same tree, active: it differs from cxA only in the flag. -/
def cxB : CfgNode := .mk "root" [] none false false false []

/-- Single-value leaf. -/
def w3a : CfgNode := .mk "root" ["1"] none false false false []

/-- Single-value leaf with another value. -/
def w3b : CfgNode := .mk "root" ["2"] none false false false []

/-- Multi-value leaf of the §3 example. -/
def w8a : CfgNode := .mk "root" ["a", "b", "c"] none false false false []

/-- Multi-value leaf of the §3 example, other side. -/
def w8b : CfgNode := .mk "root" ["b", "c", "d"] none false false false []

/-- Tree with a value, a comment and a child, for the self-diff instance. -/
def w2t : CfgNode := .mk "root" ["v"] (some "c") false false false [wX]

theorem diffNodes_def (a b : CfgNode) :
    diffNodes a b =
      .mk a.name (if leafEq a b then .unchanged else .changed)
        (a.values.filter (fun v => !(b.values.contains v)))
        (b.values.filter (fun v => !(a.values.contains v)))
        (a.comment != b.comment) b.comment none
        b.values b.secretMark b.dflt
        ((a.children.map (fun c =>
          match lookupChild b.children c.name with
          | some c2 => diffNodes c c2
          | none => delDiff c)) ++
         ((b.children.filter
           (fun c => (lookupChild a.children c.name).isNone)).map addDiff)) := by
  cases a with
  | mk an av ac ad adf asc ach =>
    rw [diffNodes]
    simp [CfgNode.children, CfgNode.name, List.attach_map_coe]

theorem all_attach {α : Type} (l : List α) (f : α → Bool) :
    (l.attach.all (fun x => f x.1)) = l.all f := by
  rw [Bool.eq_iff_iff]
  simp only [List.all_eq_true, List.mem_attach, true_implies, Subtype.forall]

theorem treeEqF_def (fl : Bool) (a b : CfgNode) :
    treeEqF fl a b =
      (valsEq a.values b.values && (a.comment == b.comment)
       && (!fl || (a.deact == b.deact && a.dflt == b.dflt && a.secretMark == b.secretMark))
       && a.children.all (fun c =>
            (lookupChild b.children c.name).any (fun c2 => treeEqF fl c c2))
       && b.children.all (fun c => (lookupChild a.children c.name).isSome)) := by
  cases a with
  | mk an av ac ad adf asc ach =>
    rw [treeEqF, Bool.eq_iff_iff]
    simp only [Bool.and_eq_true, List.all_eq_true, List.mem_attach, true_implies,
      Subtype.forall, CfgNode.children]

theorem nodeInd {P : CfgNode → Prop}
    (h : ∀ n vs cm d df sc ch, (∀ c ∈ ch, P c) → P (.mk n vs cm d df sc ch)) :
    ∀ t, P t
  | .mk n vs cm d df sc ch => h n vs cm d df sc ch (fun c hc => nodeInd h c)
termination_by t => sizeOf t
decreasing_by
  have h1 := List.sizeOf_lt_of_mem hc
  simp only [CfgNode.mk.sizeOf_spec]
  omega

theorem valsEq_refl (vs : List String) : valsEq vs vs = true := by
  simp [valsEq, List.all_eq_true]

theorem leafEq_refl (t : CfgNode) : leafEq t t = true := by
  simp [leafEq, valsEq_refl]

theorem lookupSelf {ch : List CfgNode} {c : CfgNode}
    (hnd : (ch.map CfgNode.name).Nodup) (hc : c ∈ ch) :
    lookupChild ch c.name = some c := by
  induction ch with
  | nil => simp at hc
  | cons x xs ih =>
    simp only [List.map_cons, List.nodup_cons] at hnd
    rcases List.mem_cons.mp hc with h | h
    · subst h
      simp [lookupChild]
    · have hx : x.name ≠ c.name := by
        intro he
        exact hnd.1 (he ▸ List.mem_map_of_mem CfgNode.name h)
      have hxb : (x.name == c.name) = false := beq_eq_false_iff_ne.mpr hx
      have ih2 := ih hnd.2 h
      simp only [lookupChild, List.find?_cons, hxb] at ih2 ⊢
      exact ih2

theorem applyDelete_name (t : CfgNode) (p : List String) (arg : Option String) :
    (applyDelete t p arg).name = t.name := by
  cases t with
  | mk n vs cm d df sc ch =>
    match p, arg with
    | [], some v => simp [applyDelete, CfgNode.name]
    | [], none => simp [applyDelete]
    | [s], none => simp [applyDelete, CfgNode.name]
    | [s], some v => simp [applyDelete, CfgNode.name]
    | s :: q :: r, arg => simp [applyDelete, CfgNode.name]

theorem applySet_name (t : CfgNode) (p : List String) (arg : Option String) :
    (applySet t p arg).name = t.name := by
  cases t with
  | mk n vs cm d df sc ch =>
    match p, arg with
    | [], some v => simp [applySet, CfgNode.name]
    | [], none => simp [applySet]
    | s :: r, arg =>
      simp only [applySet]
      split <;> simp [CfgNode.name]

theorem applyComment_name (t : CfgNode) (p : List String) (arg : Option String) :
    (applyComment t p arg).name = t.name := by
  cases t with
  | mk n vs cm d df sc ch =>
    match p, arg with
    | [], arg => simp [applyComment, CfgNode.name]
    | s :: r, arg => simp [applyComment, CfgNode.name]

theorem applyCmds_nil (f : CfgNode → List String → Option String → CfgNode) (t : CfgNode) :
    applyCmds f t [] = t := rfl

theorem applyCmds_cons (f : CfgNode → List String → Option String → CfgNode)
    (t : CfgNode) (c : Cmd) (cs : List Cmd) :
    applyCmds f t (c :: cs) = applyCmds f (f t c.path c.arg) cs := rfl

theorem applyCmds_append (f : CfgNode → List String → Option String → CfgNode)
    (t : CfgNode) (l1 l2 : List Cmd) :
    applyCmds f t (l1 ++ l2) = applyCmds f (applyCmds f t l1) l2 := by
  simp [applyCmds, List.foldl_append]

theorem applyCmds_name (f : CfgNode → List String → Option String → CfgNode)
    (hf : ∀ t p a, (f t p a).name = t.name) (t : CfgNode) (cs : List Cmd) :
    (applyCmds f t cs).name = t.name := by
  induction cs generalizing t with
  | nil => rfl
  | cons c cs ih => rw [applyCmds_cons, ih, hf]

theorem apply3_name (t : CfgNode) (cs : Cmds3) : (apply3 t cs).name = t.name := by
  simp [apply3, applyCmds_name _ applyComment_name, applyCmds_name _ applySet_name,
    applyCmds_name _ applyDelete_name]

theorem push2_cat2 (s : String) (x y : Cmds2) :
    push2 s (cat2 x y) = cat2 (push2 s x) (push2 s y) := by
  simp [push2, cat2]

theorem push3_cat3 (s : String) (x y : Cmds3) :
    push3 s (cat3 x y) = cat3 (push3 s x) (push3 s y) := by
  simp [push3, cat3]

theorem addCmdsList_push (s : String) :
    ∀ (cs : List CfgNode) (p : List String),
      (∀ c ∈ cs, ∀ q, addCmds (s :: q) c = push2 s (addCmds q c)) →
      addCmdsList (s :: p) cs = push2 s (addCmdsList p cs)
  | [], p, _ => by simp [addCmdsList, push2]
  | c :: cs, p, h => by
    rw [addCmdsList, addCmdsList, push2_cat2]
    rw [show s :: p ++ [c.name] = s :: (p ++ [c.name]) from rfl]
    rw [h c (List.mem_cons_self c cs) (p ++ [c.name]),
      addCmdsList_push s cs p (fun c hc => h c (List.mem_cons_of_mem _ hc))]

theorem addCmds_push (c : CfgNode) : ∀ (s : String) (p : List String),
    addCmds (s :: p) c = push2 s (addCmds p c) := by
  induction c using nodeInd with
  | h n vs cm d df sc ch ih =>
    intro s p
    simp only [addCmds]
    rw [addCmdsList_push s ch p (fun c hc q => ih c hc s q), push2_cat2]
    congr 1
    simp only [push2, pushCmd, List.map_map, Function.comp]
    refine congrArg₂ Prod.mk ?_ ?_
    · split <;> simp [pushCmd]
    · cases cm <;> simp [pushCmd]

theorem diffInd {P : DiffNode → Prop}
    (h : ∀ n st rem add cch ncm an sv sec df ch, (∀ c ∈ ch, P c) →
      P (.mk n st rem add cch ncm an sv sec df ch)) :
    ∀ d, P d
  | .mk n st rem add cch ncm an sv sec df ch =>
    h n st rem add cch ncm an sv sec df ch (fun c hc => diffInd h c)
termination_by d => sizeOf d
decreasing_by
  have h1 := List.sizeOf_lt_of_mem hc
  simp only [DiffNode.mk.sizeOf_spec]
  omega

theorem extractDList_push (s : String) :
    ∀ (ds : List DiffNode) (p : List String),
      (∀ d ∈ ds, ∀ q, extractD (s :: q) d = push3 s (extractD q d)) →
      extractDList (s :: p) ds = push3 s (extractDList p ds)
  | [], p, _ => by simp [extractDList, push3]
  | d :: ds, p, h => by
    rw [extractDList, extractDList, push3_cat3]
    rw [show s :: p ++ [dName d] = s :: (p ++ [dName d]) from rfl]
    rw [h d (List.mem_cons_self d ds) (p ++ [dName d]),
      extractDList_push s ds p (fun d hd => h d (List.mem_cons_of_mem _ hd))]

theorem extractD_push (d : DiffNode) : ∀ (s : String) (p : List String),
    extractD (s :: p) d = push3 s (extractD p d) := by
  induction d using diffInd with
  | h n st rem add cch ncm an sv sec df ch ih =>
    intro s p
    match st with
    | .deleted => simp [extractD, push3, pushCmd]
    | .added =>
      cases an with
      | none => simp [extractD, push3]
      | some t => simp [extractD, addCmds_push, push2, push3]
    | .unchanged =>
      rw [extractD, extractD]
      rw [extractDList_push s ch p (fun d hd q => ih d hd s q), push3_cat3]
      congr 1
      simp only [push3, pushCmd, List.map_map, Function.comp]
      refine congrArg₂ Prod.mk rfl (congrArg₂ Prod.mk rfl ?_)
      split <;> simp [pushCmd]
      all_goals decide
    | .changed =>
      rw [extractD, extractD]
      rw [extractDList_push s ch p (fun d hd q => ih d hd s q), push3_cat3]
      congr 1
      simp only [push3, pushCmd, List.map_map, Function.comp]
      refine congrArg₂ Prod.mk rfl (congrArg₂ Prod.mk rfl ?_)
      split <;> simp [pushCmd]
      all_goals decide

theorem cat3_assoc (x y z : Cmds3) : cat3 (cat3 x y) z = cat3 x (cat3 y z) := by
  simp [cat3]

theorem extractDList_nil (p : List String) : extractDList p [] = ([], [], []) := by
  simp [extractDList]

theorem extractDList_cons (p : List String) (d : DiffNode) (ds : List DiffNode) :
    extractDList p (d :: ds) =
      cat3 (extractD (p ++ [dName d]) d) (extractDList p ds) := by
  simp [extractDList]

theorem extractDList_append (p : List String) (ds es : List DiffNode) :
    extractDList p (ds ++ es) =
      cat3 (extractDList p ds) (extractDList p es) := by
  induction ds with
  | nil => simp [extractDList_nil, cat3]
  | cons d ds ih =>
    simp only [List.cons_append, extractDList_cons, ih, cat3_assoc]

theorem extractD_deleted (p : List String) (n : String)
    (rem add : List String) (cch : Bool) (ncm : Option String)
    (an : Option CfgNode) (sv : List String) (sec df : Bool) (ch : List DiffNode) :
    extractD p (.mk n .deleted rem add cch ncm an sv sec df ch) =
      ([⟨p, none⟩], [], []) := by
  simp [extractD]

theorem extractD_added (p : List String) (n : String)
    (rem add : List String) (cch : Bool) (ncm : Option String)
    (t : CfgNode) (sv : List String) (sec df : Bool) (ch : List DiffNode) :
    extractD p (.mk n .added rem add cch ncm (some t) sv sec df ch) =
      ([], (addCmds p t).1, (addCmds p t).2) := by
  simp [extractD]

theorem extractD_unchanged (p : List String) (n : String)
    (rem add : List String) (cch : Bool) (ncm : Option String)
    (an : Option CfgNode) (sv : List String) (sec df : Bool) (ch : List DiffNode) :
    extractD p (.mk n .unchanged rem add cch ncm an sv sec df ch) =
      cat3 (rem.map (fun v => ⟨p, some v⟩),
            add.map (fun v => ⟨p, some v⟩),
            if cch then [⟨p, ncm⟩] else [])
           (extractDList p ch) := by
  simp [extractD]

theorem extractD_changed (p : List String) (n : String)
    (rem add : List String) (cch : Bool) (ncm : Option String)
    (an : Option CfgNode) (sv : List String) (sec df : Bool) (ch : List DiffNode) :
    extractD p (.mk n .changed rem add cch ncm an sv sec df ch) =
      cat3 (rem.map (fun v => ⟨p, some v⟩),
            add.map (fun v => ⟨p, some v⟩),
            if cch then [⟨p, ncm⟩] else [])
           (extractDList p ch) := by
  simp [extractD]

theorem addCmds_eq (p : List String) (n : String) (vs : List String)
    (cm : Option String) (d df sc : Bool) (ch : List CfgNode) :
    addCmds p (.mk n vs cm d df sc ch) =
      cat2 ((if vs = [] then [⟨p, none⟩] else vs.map (fun v => ⟨p, some v⟩)),
            (match cm with | some c => [⟨p, some c⟩] | none => []))
           (addCmdsList p ch) := by
  simp [addCmds]

theorem addCmdsList_nil (p : List String) : addCmdsList p [] = ([], []) := by
  simp [addCmdsList]

theorem addCmdsList_cons (p : List String) (c : CfgNode) (cs : List CfgNode) :
    addCmdsList p (c :: cs) =
      cat2 (addCmds (p ++ [c.name]) c) (addCmdsList p cs) := by
  simp [addCmdsList]

theorem mapIf_comp (s : String) (g h : CfgNode → CfgNode)
    (hg : ∀ c, (g c).name = c.name) (ch : List CfgNode) :
    (ch.map (fun c => if c.name = s then g c else c)).map
      (fun c => if c.name = s then h c else c) =
    ch.map (fun c => if c.name = s then h (g c) else c) := by
  rw [List.map_map]
  apply List.map_congr_left
  intro c _
  by_cases hcs : c.name = s
  · simp [Function.comp, hcs, hg]
  · simp [Function.comp, hcs]

theorem stripDel (s : String) :
    ∀ (L : List Cmd) (n : String) (vs : List String) (cm : Option String)
      (d df sc : Bool) (ch : List CfgNode), Cmd.mk [] none ∉ L →
    applyCmds applyDelete (.mk n vs cm d df sc ch) (L.map (pushCmd s)) =
      .mk n vs cm d df sc
        (ch.map (fun c => if c.name = s then applyCmds applyDelete c L else c))
  | [], n, vs, cm, d, df, sc, ch, _ => by
    simp [applyCmds]
  | c0 :: L, n, vs, cm, d, df, sc, ch, hL => by
    have hc0 : c0 ≠ Cmd.mk [] none := fun he => hL (he ▸ List.mem_cons_self c0 L)
    rw [List.map_cons, applyCmds_cons]
    have hstep : applyDelete (.mk n vs cm d df sc ch) (pushCmd s c0).path (pushCmd s c0).arg =
        .mk n vs cm d df sc
          (ch.map (fun c => if c.name = s then applyDelete c c0.path c0.arg else c)) := by
      rcases c0 with ⟨p0, a0⟩
      match p0, a0 with
      | [], some v => simp [pushCmd, applyDelete]
      | [], none => exact absurd rfl hc0
      | q :: r, a0 => simp [pushCmd, applyDelete]
    rw [hstep, stripDel s L n vs cm d df sc _ (fun he => hL (List.mem_cons_of_mem _ he))]
    rw [mapIf_comp s _ _ (fun c => applyDelete_name c c0.path c0.arg)]
    rfl

theorem stripCom (s : String) :
    ∀ (L : List Cmd) (n : String) (vs : List String) (cm : Option String)
      (d df sc : Bool) (ch : List CfgNode),
    applyCmds applyComment (.mk n vs cm d df sc ch) (L.map (pushCmd s)) =
      .mk n vs cm d df sc
        (ch.map (fun c => if c.name = s then applyCmds applyComment c L else c))
  | [], n, vs, cm, d, df, sc, ch => by
    simp [applyCmds]
  | c0 :: L, n, vs, cm, d, df, sc, ch => by
    rw [List.map_cons, applyCmds_cons]
    have hstep : applyComment (.mk n vs cm d df sc ch) (pushCmd s c0).path (pushCmd s c0).arg =
        .mk n vs cm d df sc
          (ch.map (fun c => if c.name = s then applyComment c c0.path c0.arg else c)) := by
      rcases c0 with ⟨p0, a0⟩
      simp [pushCmd, applyComment]
    rw [hstep, stripCom s L n vs cm d df sc _]
    rw [mapIf_comp s _ _ (fun c => applyComment_name c c0.path c0.arg)]
    rfl

theorem lookup_isSome_iff (ch : List CfgNode) (s : String) :
    (lookupChild ch s).isSome ↔ s ∈ ch.map CfgNode.name := by
  simp [lookupChild, List.find?_isSome, List.mem_map]

theorem lookup_none_iff (ch : List CfgNode) (s : String) :
    lookupChild ch s = none ↔ ∀ c ∈ ch, c.name ≠ s := by
  simp [lookupChild, List.find?_eq_none]

theorem namesMapIf (s : String) (g : CfgNode → CfgNode)
    (hg : ∀ c, (g c).name = c.name) (ch : List CfgNode) :
    (ch.map (fun c => if c.name = s then g c else c)).map CfgNode.name =
      ch.map CfgNode.name := by
  rw [List.map_map]
  apply List.map_congr_left
  intro c _
  by_cases hcs : c.name = s <;> simp [Function.comp, hcs, hg]

theorem stripSetSome (s : String) :
    ∀ (L : List Cmd) (n : String) (vs : List String) (cm : Option String)
      (d df sc : Bool) (ch : List CfgNode), (lookupChild ch s).isSome →
    applyCmds applySet (.mk n vs cm d df sc ch) (L.map (pushCmd s)) =
      .mk n vs cm d df sc
        (ch.map (fun c => if c.name = s then applyCmds applySet c L else c))
  | [], n, vs, cm, d, df, sc, ch, _ => by
    simp [applyCmds]
  | c0 :: L, n, vs, cm, d, df, sc, ch, h => by
    rw [List.map_cons, applyCmds_cons]
    have hstep : applySet (.mk n vs cm d df sc ch) (pushCmd s c0).path (pushCmd s c0).arg =
        .mk n vs cm d df sc
          (ch.map (fun c => if c.name = s then applySet c c0.path c0.arg else c)) := by
      rcases c0 with ⟨p0, a0⟩
      simp only [pushCmd, applySet, h, if_pos]
    have h2 : (lookupChild (ch.map
        (fun c => if c.name = s then applySet c c0.path c0.arg else c)) s).isSome := by
      rw [lookup_isSome_iff, namesMapIf s _ (fun c => applySet_name c c0.path c0.arg)]
      exact (lookup_isSome_iff ch s).mp h
    rw [hstep, stripSetSome s L n vs cm d df sc _ h2]
    rw [mapIf_comp s _ _ (fun c => applySet_name c c0.path c0.arg)]
    rfl

theorem stripSetNone (s : String) (c0 : Cmd) (L : List Cmd)
    (n : String) (vs : List String) (cm : Option String)
    (d df sc : Bool) (ch : List CfgNode) (h : lookupChild ch s = none) :
    applyCmds applySet (.mk n vs cm d df sc ch) ((c0 :: L).map (pushCmd s)) =
      .mk n vs cm d df sc (ch ++ [applyCmds applySet (emptyNode s) (c0 :: L)]) := by
  rw [List.map_cons, applyCmds_cons]
  have hstep : applySet (.mk n vs cm d df sc ch) (pushCmd s c0).path (pushCmd s c0).arg =
      .mk n vs cm d df sc (ch ++ [applySet (emptyNode s) c0.path c0.arg]) := by
    rcases c0 with ⟨p0, a0⟩
    simp [pushCmd, applySet, h]
  rw [hstep]
  have hx : (applySet (emptyNode s) c0.path c0.arg).name = s := by
    rw [applySet_name]
    rfl
  have h2 : (lookupChild (ch ++ [applySet (emptyNode s) c0.path c0.arg]) s).isSome := by
    rw [lookup_isSome_iff, List.map_append, List.mem_append]
    right
    simp [hx]
  rw [stripSetSome s L n vs cm d df sc _ h2]
  congr 1
  rw [List.map_append]
  have hch : ch.map (fun c => if c.name = s then applyCmds applySet c L else c) = ch := by
    trans ch.map id
    · apply List.map_congr_left
      intro c hc
      rw [if_neg ((lookup_none_iff ch s).mp h c hc)]
      rfl
    · exact List.map_id ch
  rw [hch]
  congr 1
  simp [hx, applyCmds_cons]

theorem rootDels (R : List String) :
    ∀ (vs : List String) (n : String) (cm : Option String) (d df sc : Bool)
      (ch : List CfgNode),
    applyCmds applyDelete (.mk n vs cm d df sc ch) (R.map (fun v => ⟨[], some v⟩)) =
      .mk n (R.foldl (fun acc v => acc.filter (fun w => w ≠ v)) vs) cm d df sc ch
  | vs, n, cm, d, df, sc, ch => by
    induction R generalizing vs with
    | nil => simp [applyCmds]
    | cons v R ih =>
      rw [List.map_cons, applyCmds_cons]
      simp only [applyDelete, List.foldl_cons]
      exact ih _

theorem rootSets (R : List String) :
    ∀ (vs : List String) (n : String) (cm : Option String) (d df sc : Bool)
      (ch : List CfgNode),
    applyCmds applySet (.mk n vs cm d df sc ch) (R.map (fun v => ⟨[], some v⟩)) =
      .mk n (R.foldl addValue vs) cm d df sc ch
  | vs, n, cm, d, df, sc, ch => by
    induction R generalizing vs with
    | nil => simp [applyCmds]
    | cons v R ih =>
      rw [List.map_cons, applyCmds_cons]
      simp only [applySet, List.foldl_cons]
      exact ih _

theorem rootCom (a : Option String) (n : String) (vs : List String)
    (cm : Option String) (d df sc : Bool) (ch : List CfgNode) :
    applyCmds applyComment (.mk n vs cm d df sc ch) [⟨[], a⟩] =
      .mk n vs a d df sc ch := by
  rw [applyCmds_cons, applyCmds_nil]
  simp [applyComment]

theorem extractD_added_none (p : List String) (n : String)
    (rem add : List String) (cch : Bool) (ncm : Option String)
    (sv : List String) (sec df : Bool) (ch : List DiffNode) :
    extractD p (.mk n .added rem add cch ncm none sv sec df ch) = ([], [], []) := by
  simp [extractD]

theorem addSets_ne_nil (t : CfgNode) : (addCmds [] t).1 ≠ [] := by
  cases t with
  | mk n vs cm d df sc ch =>
    rw [addCmds_eq]
    simp only [cat2]
    intro h
    rcases List.append_eq_nil.mp h with ⟨h1, _⟩
    by_cases hvs : vs = []
    · rw [if_pos hvs] at h1
      exact List.cons_ne_nil _ _ h1
    · rw [if_neg hvs] at h1
      exact hvs (List.map_eq_nil_iff.mp h1)

theorem extractDList_noBare (ds : List DiffNode) (hd : ∀ d ∈ ds, True) :
    Cmd.mk [] none ∉ (extractDList [] ds).1 := by
  induction ds with
  | nil => simp [extractDList_nil]
  | cons d ds ih =>
    rw [extractDList_cons]
    simp only [cat3, List.mem_append]
    rintro (h | h)
    · rw [List.nil_append, extractD_push] at h
      simp only [push3, List.mem_map] at h
      rcases h with ⟨c, _, hc⟩
      have := congrArg Cmd.path hc
      simp [pushCmd] at this
    · exact ih (fun d hd => trivial) h

theorem noBare (d : DiffNode) (hst : dStatus d ≠ .deleted) :
    Cmd.mk [] none ∉ (extractD [] d).1 := by
  cases d with
  | mk n st rem add cch ncm an sv sec df ch =>
    match st with
    | .deleted => exact absurd rfl hst
    | .added =>
      cases an with
      | none => rw [extractD_added_none]; simp
      | some t => rw [extractD_added]; simp
    | .unchanged =>
      rw [extractD_unchanged]
      simp only [cat3, List.mem_append, List.mem_map]
      rintro (⟨v, _, hv⟩ | h)
      · have := congrArg Cmd.arg hv
        simp at this
      · exact extractDList_noBare ch (fun _ _ => trivial) h
    | .changed =>
      rw [extractD_changed]
      simp only [cat3, List.mem_append, List.mem_map]
      rintro (⟨v, _, hv⟩ | h)
      · have := congrArg Cmd.arg hv
        simp at this
      · exact extractDList_noBare ch (fun _ _ => trivial) h

theorem lookupD_cons (d : DiffNode) (ds : List DiffNode) (s : String) :
    lookupD (d :: ds) s = if dName d == s then some d else lookupD ds s := by
  simp only [lookupD, List.find?_cons]
  cases h : (dName d == s) <;> simp [h, lookupD]

theorem lookupD_not_mem {ds : List DiffNode} {s : String}
    (h : s ∉ ds.map dName) : lookupD ds s = none := by
  induction ds with
  | nil => rfl
  | cons d ds ih =>
    rw [lookupD_cons, if_neg, ih]
    · intro hm
      exact h (List.mem_cons_of_mem _ hm)
    · intro he
      rw [beq_iff_eq] at he
      exact h (he ▸ List.mem_cons_self _ _)

theorem filterMap_filter_eq {α β : Type} (p : α → Bool) (f g : α → Option β)
    (h1 : ∀ x, p x = true → f x = g x) (h2 : ∀ x, p x = false → g x = none) :
    ∀ l : List α, (l.filter p).filterMap f = l.filterMap g
  | [] => rfl
  | x :: l => by
    cases hp : p x with
    | true =>
      rw [List.filter_cons_of_pos hp, List.filterMap_cons, List.filterMap_cons,
        h1 x hp, filterMap_filter_eq p f g h1 h2 l]
    | false =>
      rw [List.filter_cons_of_neg (by simp [hp]), List.filterMap_cons, h2 x hp,
        filterMap_filter_eq p f g h1 h2 l]

theorem evalD (ds : List DiffNode) :
    ∀ (n : String) (vs : List String) (cm : Option String) (d df sc : Bool)
      (ch : List CfgNode), (ds.map dName).Nodup →
    applyCmds applyDelete (.mk n vs cm d df sc ch) ((extractDList [] ds).1) =
      .mk n vs cm d df sc (ch.filterMap (delXform ds)) := by
  induction ds with
  | nil =>
    intro n vs cm d df sc ch _
    rw [extractDList_nil, applyCmds_nil]
    congr 1
    rw [show delXform [] = some from funext (fun x => rfl)]
    exact (List.filterMap_some ch).symm
  | cons d0 ds ih =>
    intro n vs cm d df sc ch hnd
    rw [List.map_cons, List.nodup_cons] at hnd
    rw [extractDList_cons]
    have hpush : extractD ([] ++ [dName d0]) d0 = push3 (dName d0) (extractD [] d0) := by
      rw [List.nil_append]
      exact extractD_push d0 (dName d0) []
    rw [hpush]
    simp only [cat3, push3]
    rw [applyCmds_append]
    cases d0 with
    | mk n0 st0 rem0 add0 cch0 ncm0 an0 sv0 sec0 df0 ch0 =>
      cases st0 with
      | deleted =>
        rw [extractD_deleted]
        simp only [List.map_cons, List.map_nil, dName]
        rw [show applyCmds applyDelete (CfgNode.mk n vs cm d df sc ch)
            [pushCmd n0 ⟨[], none⟩] = .mk n vs cm d df sc
              (ch.filter (fun c => c.name ≠ n0)) from by
          rw [applyCmds_cons, applyCmds_nil]
          simp [pushCmd, applyDelete]]
        rw [ih n vs cm d df sc _ hnd.2]
        congr 1
        exact filterMap_filter_eq _ _ _
          (fun x hx => by
            simp only [decide_eq_true_eq] at hx
            simp [delXform, lookupD_cons, dName, beq_eq_false_iff_ne, hx,
              if_neg, Ne.symm hx])
          (fun x hx => by
            simp only [decide_eq_false_iff_not, not_not] at hx
            simp [delXform, lookupD_cons, dName, hx, dStatus]) ch
      | added =>
        have hcmds : (extractD [] (.mk n0 .added rem0 add0 cch0 ncm0 an0 sv0 sec0 df0 ch0)).1 = [] := by
          cases an0 with
          | none => rw [extractD_added_none]
          | some t => rw [extractD_added]
        rw [hcmds]
        simp only [List.map_nil]
        rw [applyCmds_nil, ih n vs cm d df sc _ hnd.2]
        congr 1
        apply congrArg₂ _ _ rfl
        funext x
        have hnm : lookupD ds n0 = none :=
          lookupD_not_mem (by simpa [dName] using hnd.1)
        by_cases hx : x.name = n0
        · simp [delXform, lookupD_cons, dName, hx, hnm, dStatus]
        · simp [delXform, lookupD_cons, dName, beq_eq_false_iff_ne, Ne.symm hx]
      | unchanged =>
        rw [stripDel (dName (.mk n0 .unchanged rem0 add0 cch0 ncm0 an0 sv0 sec0 df0 ch0))
          _ n vs cm d df sc ch (noBare _ (by simp [dStatus]))]
        rw [ih n vs cm d df sc _ hnd.2]
        congr 1
        rw [List.filterMap_map]
        apply congrArg₂ _ _ rfl
        funext x
        have hname : (applyCmds applyDelete x
            (extractD [] (.mk n0 .unchanged rem0 add0 cch0 ncm0 an0 sv0 sec0 df0 ch0)).1).name = x.name :=
          applyCmds_name _ applyDelete_name _ _
        have hnm : lookupD ds n0 = none :=
          lookupD_not_mem (by simpa [dName] using hnd.1)
        simp only [dName, Function.comp]
        by_cases hx : x.name = n0
        · simp [delXform, hx, lookupD_cons, dName, hname, hnm, dStatus]
        · simp [delXform, hx, lookupD_cons, dName, beq_eq_false_iff_ne, Ne.symm hx]
      | changed =>
        rw [stripDel (dName (.mk n0 .changed rem0 add0 cch0 ncm0 an0 sv0 sec0 df0 ch0))
          _ n vs cm d df sc ch (noBare _ (by simp [dStatus]))]
        rw [ih n vs cm d df sc _ hnd.2]
        congr 1
        rw [List.filterMap_map]
        apply congrArg₂ _ _ rfl
        funext x
        have hname : (applyCmds applyDelete x
            (extractD [] (.mk n0 .changed rem0 add0 cch0 ncm0 an0 sv0 sec0 df0 ch0)).1).name = x.name :=
          applyCmds_name _ applyDelete_name _ _
        have hnm : lookupD ds n0 = none :=
          lookupD_not_mem (by simpa [dName] using hnd.1)
        simp only [dName, Function.comp]
        by_cases hx : x.name = n0
        · simp [delXform, hx, lookupD_cons, dName, hname, hnm, dStatus]
        · simp [delXform, hx, lookupD_cons, dName, beq_eq_false_iff_ne, Ne.symm hx]

theorem builds_cons_skip (d0 : DiffNode) (ds : List DiffNode)
    (h : ∀ t, ¬(dStatus d0 = .added ∧ dAddedN d0 = some t)) :
    builds (d0 :: ds) = builds ds := by
  cases d0 with
  | mk n0 st0 rem0 add0 cch0 ncm0 an0 sv0 sec0 df0 ch0 =>
    cases st0 with
    | added =>
      cases an0 with
      | some t => exact absurd ⟨rfl, rfl⟩ (h t)
      | none => rfl
    | unchanged => rfl
    | deleted => rfl
    | changed => rfl

theorem evalS (ds : List DiffNode) :
    ∀ (n : String) (vs : List String) (cm : Option String) (d df sc : Bool)
      (ch : List CfgNode), (ds.map dName).Nodup →
    (∀ dd ∈ ds, dStatus dd = .added → dName dd ∉ ch.map CfgNode.name) →
    (∀ dd ∈ ds, (dStatus dd = .unchanged ∨ dStatus dd = .changed) →
      dName dd ∈ ch.map CfgNode.name) →
    applyCmds applySet (.mk n vs cm d df sc ch) ((extractDList [] ds).2.1) =
      .mk n vs cm d df sc (ch.map (setXform ds) ++ builds ds) := by
  induction ds with
  | nil =>
    intro n vs cm d df sc ch _ _ _
    rw [extractDList_nil, applyCmds_nil]
    congr 1
    rw [show builds [] = [] from rfl, List.append_nil]
    rw [show setXform [] = fun x => x from funext fun x => rfl]
    exact (List.map_id ch).symm
  | cons d0 ds ih =>
    intro n vs cm d df sc ch hnd h2 h3
    rw [List.map_cons, List.nodup_cons] at hnd
    have h2r : ∀ dd ∈ ds, dStatus dd = .added → dName dd ∉ ch.map CfgNode.name :=
      fun dd hdd => h2 dd (List.mem_cons_of_mem _ hdd)
    have h3r : ∀ dd ∈ ds, (dStatus dd = .unchanged ∨ dStatus dd = .changed) →
        dName dd ∈ ch.map CfgNode.name :=
      fun dd hdd => h3 dd (List.mem_cons_of_mem _ hdd)
    rw [extractDList_cons]
    have hpush : extractD ([] ++ [dName d0]) d0 = push3 (dName d0) (extractD [] d0) := by
      rw [List.nil_append]
      exact extractD_push d0 (dName d0) []
    rw [hpush]
    simp only [cat3, push3]
    rw [applyCmds_append]
    cases d0 with
    | mk n0 st0 rem0 add0 cch0 ncm0 an0 sv0 sec0 df0 ch0 =>
      cases st0 with
      | deleted =>
        rw [extractD_deleted]
        simp only [List.map_nil]
        rw [applyCmds_nil, ih n vs cm d df sc _ hnd.2 h2r h3r]
        rw [builds_cons_skip _ _ (fun t h => by simp [dStatus] at h)]
        congr 2
        apply congrArg₂ _ _ rfl
        funext x
        have hnm : lookupD ds n0 = none :=
          lookupD_not_mem (by simpa [dName] using hnd.1)
        by_cases hx : x.name = n0
        · simp [setXform, lookupD_cons, dName, hx, hnm, dStatus]
        · simp [setXform, lookupD_cons, dName, beq_eq_false_iff_ne, Ne.symm hx]
      | added =>
        cases an0 with
        | none =>
          rw [extractD_added_none]
          simp only [List.map_nil]
          rw [applyCmds_nil, ih n vs cm d df sc _ hnd.2 h2r h3r]
          rw [builds_cons_skip _ _ (fun t h => by simp [dAddedN] at h)]
          congr 2
          apply congrArg₂ _ _ rfl
          funext x
          have hnm : lookupD ds n0 = none :=
            lookupD_not_mem (by simpa [dName] using hnd.1)
          by_cases hx : x.name = n0
          · simp [setXform, lookupD_cons, dName, hx, hnm, dStatus]
          · simp [setXform, lookupD_cons, dName, beq_eq_false_iff_ne, Ne.symm hx]
        | some t =>
          rw [extractD_added]
          simp only [dName]
          have hlook : lookupChild ch n0 = none := by
            cases hl : lookupChild ch n0 with
            | none => rfl
            | some c =>
              exfalso
              apply h2 _ (List.mem_cons_self _ _) (by simp [dStatus])
              simp only [dName]
              rw [← lookup_isSome_iff, hl]
              rfl
          obtain ⟨c0, L, hL⟩ : ∃ c0 L, (addCmds [] t).1 = c0 :: L := by
            cases hadd : (addCmds [] t).1 with
            | nil => exact absurd hadd (addSets_ne_nil t)
            | cons c0 L => exact ⟨c0, L, rfl⟩
          rw [hL, stripSetNone n0 c0 L n vs cm d df sc ch hlook, ← hL]
          have hB0name : (applyCmds applySet (emptyNode n0) (addCmds [] t).1).name = n0 :=
            applyCmds_name _ applySet_name _ _
          rw [ih n vs cm d df sc _ hnd.2
            (fun dd hdd hst => by
              rw [List.map_append]
              simp only [List.mem_append]
              rintro (hm | hm)
              · exact h2r dd hdd hst hm
              · simp only [List.map_cons, List.map_nil, List.mem_cons,
                  List.not_mem_nil] at hm
                rcases hm with hm | hm
                · rw [hB0name] at hm
                  apply hnd.1
                  show n0 ∈ List.map dName ds
                  rw [← hm]
                  exact List.mem_map_of_mem dName hdd
                · exact hm)
            (fun dd hdd hst => by
              rw [List.map_append, List.mem_append]
              exact Or.inl (h3r dd hdd hst))]
          rw [List.map_append]
          simp only [List.map_cons, List.map_nil]
          have hB0 : setXform ds (applyCmds applySet (emptyNode n0) (addCmds [] t).1) =
              applyCmds applySet (emptyNode n0) (addCmds [] t).1 := by
            have hnm : lookupD ds n0 = none :=
              lookupD_not_mem (by simpa [dName] using hnd.1)
            simp [setXform, hB0name, hnm]
          rw [hB0]
          have hbuilds : builds (.mk n0 .added rem0 add0 cch0 ncm0 (some t) sv0 sec0 df0 ch0 :: ds) =
              applyCmds applySet (emptyNode n0) (addCmds [] t).1 :: builds ds := by
            rw [builds, List.filterMap_cons]
            rfl
          rw [hbuilds]
          rw [List.append_assoc]
          congr 2
          · apply congrArg₂ _ _ rfl
            funext x
            have hnm : lookupD ds n0 = none :=
              lookupD_not_mem (by simpa [dName] using hnd.1)
            by_cases hx : x.name = n0
            · simp [setXform, lookupD_cons, dName, hx, hnm, dStatus]
            · simp [setXform, lookupD_cons, dName, beq_eq_false_iff_ne, Ne.symm hx]
      | unchanged =>
        rw [stripSetSome (dName (.mk n0 .unchanged rem0 add0 cch0 ncm0 an0 sv0 sec0 df0 ch0))
          _ n vs cm d df sc ch (by
            rw [lookup_isSome_iff]
            exact h3 _ (List.mem_cons_self _ _) (Or.inl rfl))]
        rw [ih n vs cm d df sc _ hnd.2
          (fun dd hdd hst => by
            rw [namesMapIf _ _ (fun c => applyCmds_name _ applySet_name _ _)]
            exact h2r dd hdd hst)
          (fun dd hdd hst => by
            rw [namesMapIf _ _ (fun c => applyCmds_name _ applySet_name _ _)]
            exact h3r dd hdd hst)]
        rw [builds_cons_skip _ _ (fun t h => by simp [dStatus] at h)]
        congr 2
        rw [List.map_map]
        apply congrArg₂ _ _ rfl
        funext x
        have hname : (applyCmds applySet x
            (extractD [] (.mk n0 .unchanged rem0 add0 cch0 ncm0 an0 sv0 sec0 df0 ch0)).2.1).name = x.name :=
          applyCmds_name _ applySet_name _ _
        have hnm : lookupD ds n0 = none :=
          lookupD_not_mem (by simpa [dName] using hnd.1)
        simp only [dName, Function.comp]
        by_cases hx : x.name = n0
        · simp [setXform, hx, lookupD_cons, dName, hname, hnm, dStatus]
        · simp [setXform, hx, lookupD_cons, dName, beq_eq_false_iff_ne, Ne.symm hx]
      | changed =>
        rw [stripSetSome (dName (.mk n0 .changed rem0 add0 cch0 ncm0 an0 sv0 sec0 df0 ch0))
          _ n vs cm d df sc ch (by
            rw [lookup_isSome_iff]
            exact h3 _ (List.mem_cons_self _ _) (Or.inr rfl))]
        rw [ih n vs cm d df sc _ hnd.2
          (fun dd hdd hst => by
            rw [namesMapIf _ _ (fun c => applyCmds_name _ applySet_name _ _)]
            exact h2r dd hdd hst)
          (fun dd hdd hst => by
            rw [namesMapIf _ _ (fun c => applyCmds_name _ applySet_name _ _)]
            exact h3r dd hdd hst)]
        rw [builds_cons_skip _ _ (fun t h => by simp [dStatus] at h)]
        congr 2
        rw [List.map_map]
        apply congrArg₂ _ _ rfl
        funext x
        have hname : (applyCmds applySet x
            (extractD [] (.mk n0 .changed rem0 add0 cch0 ncm0 an0 sv0 sec0 df0 ch0)).2.1).name = x.name :=
          applyCmds_name _ applySet_name _ _
        have hnm : lookupD ds n0 = none :=
          lookupD_not_mem (by simpa [dName] using hnd.1)
        simp only [dName, Function.comp]
        by_cases hx : x.name = n0
        · simp [setXform, hx, lookupD_cons, dName, hname, hnm, dStatus]
        · simp [setXform, hx, lookupD_cons, dName, beq_eq_false_iff_ne, Ne.symm hx]

theorem evalC (ds : List DiffNode) :
    ∀ (n : String) (vs : List String) (cm : Option String) (d df sc : Bool)
      (ch : List CfgNode), (ds.map dName).Nodup →
    applyCmds applyComment (.mk n vs cm d df sc ch) ((extractDList [] ds).2.2) =
      .mk n vs cm d df sc (ch.map (comXform ds)) := by
  induction ds with
  | nil =>
    intro n vs cm d df sc ch _
    rw [extractDList_nil, applyCmds_nil]
    congr 1
    rw [show comXform [] = fun x => x from funext fun x => rfl]
    exact (List.map_id ch).symm
  | cons d0 ds ih =>
    intro n vs cm d df sc ch hnd
    rw [List.map_cons, List.nodup_cons] at hnd
    rw [extractDList_cons]
    have hpush : extractD ([] ++ [dName d0]) d0 = push3 (dName d0) (extractD [] d0) := by
      rw [List.nil_append]
      exact extractD_push d0 (dName d0) []
    rw [hpush]
    simp only [cat3, push3]
    rw [applyCmds_append]
    cases d0 with
    | mk n0 st0 rem0 add0 cch0 ncm0 an0 sv0 sec0 df0 ch0 =>
      have hnm : lookupD ds n0 = none :=
        lookupD_not_mem (by simpa [dName] using hnd.1)
      cases st0 with
      | deleted =>
        rw [extractD_deleted]
        simp only [List.map_nil]
        rw [applyCmds_nil, ih n vs cm d df sc _ hnd.2]
        congr 1
        apply congrArg₂ _ _ rfl
        funext x
        by_cases hx : x.name = n0
        · simp [comXform, lookupD_cons, dName, hx, hnm, dStatus]
        · simp [comXform, lookupD_cons, dName, beq_eq_false_iff_ne, Ne.symm hx]
      | added =>
        cases an0 with
        | none =>
          rw [extractD_added_none]
          simp only [List.map_nil]
          rw [applyCmds_nil, ih n vs cm d df sc _ hnd.2]
          congr 1
          apply congrArg₂ _ _ rfl
          funext x
          by_cases hx : x.name = n0
          · simp [comXform, lookupD_cons, dName, hx, hnm, dStatus, dAddedN]
          · simp [comXform, lookupD_cons, dName, beq_eq_false_iff_ne, Ne.symm hx]
        | some t =>
          rw [extractD_added]
          simp only [dName]
          rw [stripCom n0 _ n vs cm d df sc ch]
          rw [ih n vs cm d df sc _ hnd.2]
          congr 1
          rw [List.map_map]
          apply congrArg₂ _ _ rfl
          funext x
          have hname : (applyCmds applyComment x (addCmds [] t).2).name = x.name :=
            applyCmds_name _ applyComment_name _ _
          simp only [Function.comp]
          by_cases hx : x.name = n0
          · simp [comXform, lookupD_cons, dName, hx, hnm, dStatus, dAddedN, hname]
          · simp [comXform, hx, lookupD_cons, dName, beq_eq_false_iff_ne, Ne.symm hx]
      | unchanged =>
        rw [stripCom (dName (.mk n0 .unchanged rem0 add0 cch0 ncm0 an0 sv0 sec0 df0 ch0))
          _ n vs cm d df sc ch]
        rw [ih n vs cm d df sc _ hnd.2]
        congr 1
        rw [List.map_map]
        apply congrArg₂ _ _ rfl
        funext x
        have hname : (applyCmds applyComment x
            (extractD [] (.mk n0 .unchanged rem0 add0 cch0 ncm0 an0 sv0 sec0 df0 ch0)).2.2).name = x.name :=
          applyCmds_name _ applyComment_name _ _
        simp only [dName, Function.comp]
        by_cases hx : x.name = n0
        · simp [comXform, lookupD_cons, dName, hx, hnm, dStatus, hname]
        · simp [comXform, hx, lookupD_cons, dName, beq_eq_false_iff_ne, Ne.symm hx]
      | changed =>
        rw [stripCom (dName (.mk n0 .changed rem0 add0 cch0 ncm0 an0 sv0 sec0 df0 ch0))
          _ n vs cm d df sc ch]
        rw [ih n vs cm d df sc _ hnd.2]
        congr 1
        rw [List.map_map]
        apply congrArg₂ _ _ rfl
        funext x
        have hname : (applyCmds applyComment x
            (extractD [] (.mk n0 .changed rem0 add0 cch0 ncm0 an0 sv0 sec0 df0 ch0)).2.2).name = x.name :=
          applyCmds_name _ applyComment_name _ _
        simp only [dName, Function.comp]
        by_cases hx : x.name = n0
        · simp [comXform, lookupD_cons, dName, hx, hnm, dStatus, hname]
        · simp [comXform, hx, lookupD_cons, dName, beq_eq_false_iff_ne, Ne.symm hx]

theorem buildOfList_eq_map : ∀ cs : List CfgNode, buildOfList cs = cs.map buildOf
  | [] => rfl
  | c :: cs => by rw [buildOfList, List.map_cons, buildOfList_eq_map cs]

theorem wfList_mem : ∀ (cs : List CfgNode), wfList cs = true → ∀ c ∈ cs, wf c = true
  | [], _, c, hc => absurd hc (List.not_mem_nil c)
  | x :: cs, h, c, hc => by
    rw [wfList, Bool.and_eq_true] at h
    rcases List.mem_cons.mp hc with hc | hc
    · exact hc ▸ h.1
    · exact wfList_mem cs h.2 c hc

theorem wf_parts {n : String} {vs : List String} {cm : Option String}
    {d df sc : Bool} {ch : List CfgNode} (h : wf (.mk n vs cm d df sc ch) = true) :
    (ch.map CfgNode.name).Nodup ∧ ∀ c ∈ ch, wf c = true := by
  rw [wf, Bool.and_eq_true] at h
  refine ⟨by simpa using h.1, wfList_mem ch h.2⟩

theorem buildListS (cs : List CfgNode) :
    ∀ (n : String) (vs : List String) (cm : Option String) (d df sc : Bool)
      (ch : List CfgNode), ((cs.map CfgNode.name).Nodup) →
      (∀ c ∈ cs, c.name ∉ ch.map CfgNode.name) →
    applyCmds applySet (.mk n vs cm d df sc ch) ((addCmdsList [] cs).1) =
      .mk n vs cm d df sc
        (ch ++ cs.map (fun c => applyCmds applySet (emptyNode c.name) (addCmds [] c).1)) := by
  induction cs with
  | nil =>
    intro n vs cm d df sc ch _ _
    rw [addCmdsList_nil, applyCmds_nil]
    simp
  | cons c1 cs ih =>
    intro n vs cm d df sc ch hnd hdis
    rw [List.map_cons, List.nodup_cons] at hnd
    rw [addCmdsList_cons]
    simp only [cat2, List.nil_append]
    rw [applyCmds_append]
    have hpush : addCmds [c1.name] c1 = push2 c1.name (addCmds [] c1) :=
      addCmds_push c1 c1.name []
    rw [hpush]
    simp only [push2]
    have hlook : lookupChild ch c1.name = none := by
      cases hl : lookupChild ch c1.name with
      | none => rfl
      | some c =>
        exfalso
        apply hdis c1 (List.mem_cons_self _ _)
        rw [← lookup_isSome_iff, hl]
        rfl
    obtain ⟨c0, L, hL⟩ : ∃ c0 L, (addCmds [] c1).1 = c0 :: L := by
      cases hadd : (addCmds [] c1).1 with
      | nil => exact absurd hadd (addSets_ne_nil c1)
      | cons c0 L => exact ⟨c0, L, rfl⟩
    rw [hL, stripSetNone c1.name c0 L n vs cm d df sc ch hlook, ← hL]
    have hB1name : (applyCmds applySet (emptyNode c1.name) (addCmds [] c1).1).name = c1.name :=
      applyCmds_name _ applySet_name _ _
    rw [ih n vs cm d df sc _ hnd.2
      (fun c hc => by
        rw [List.map_append]
        simp only [List.mem_append, List.map_cons, List.map_nil, List.mem_cons,
          List.not_mem_nil]
        rintro (hm | hm | hm)
        · exact hdis c (List.mem_cons_of_mem _ hc) hm
        · rw [hB1name] at hm
          exact hnd.1 (hm ▸ List.mem_map_of_mem CfgNode.name hc)
        · exact hm)]
    rw [List.append_assoc]
    rfl

theorem buildListC (cs : List CfgNode) :
    ∀ (n : String) (vs : List String) (cm : Option String) (d df sc : Bool)
      (ch : List CfgNode), ((cs.map CfgNode.name).Nodup) →
    applyCmds applyComment (.mk n vs cm d df sc ch) ((addCmdsList [] cs).2) =
      .mk n vs cm d df sc
        (ch.map (fun x => match lookupChild cs x.name with
          | some c => applyCmds applyComment x (addCmds [] c).2
          | none => x)) := by
  induction cs with
  | nil =>
    intro n vs cm d df sc ch _
    rw [addCmdsList_nil, applyCmds_nil]
    congr 1
    rw [show (fun (x : CfgNode) => match lookupChild [] x.name with
      | some c => applyCmds applyComment x (addCmds [] c).2
      | none => x) = fun x => x from funext fun x => rfl]
    exact (List.map_id ch).symm
  | cons c1 cs ih =>
    intro n vs cm d df sc ch hnd
    rw [List.map_cons, List.nodup_cons] at hnd
    rw [addCmdsList_cons]
    simp only [cat2, List.nil_append]
    rw [applyCmds_append]
    have hpush : addCmds [c1.name] c1 = push2 c1.name (addCmds [] c1) :=
      addCmds_push c1 c1.name []
    rw [hpush]
    simp only [push2]
    rw [stripCom c1.name _ n vs cm d df sc ch]
    rw [ih n vs cm d df sc _ hnd.2]
    congr 1
    rw [List.map_map]
    apply congrArg₂ _ _ rfl
    funext x
    have hname : (applyCmds applyComment x (addCmds [] c1).2).name = x.name :=
      applyCmds_name _ applyComment_name _ _
    have hlnone : lookupChild cs c1.name = none := by
      rw [lookup_none_iff]
      intro c hc he
      exact hnd.1 (he ▸ List.mem_map_of_mem CfgNode.name hc)
    simp only [Function.comp]
    by_cases hx : x.name = c1.name
    · simp only [lookupChild] at hlnone
      simp [lookupChild, List.find?_cons, hx, hname, hlnone]
    · have : (c1.name == x.name) = false := by
        rw [beq_eq_false_iff_ne]
        exact fun he => hx he.symm
      simp [hx, lookupChild, List.find?_cons, this]

theorem buildNode : ∀ (c : CfgNode), wf c = true →
    applyCmds applyComment
      (applyCmds applySet (emptyNode c.name) (addCmds [] c).1)
      (addCmds [] c).2 = buildOf c := by
  intro c
  induction c using nodeInd with
  | h n vs cm d df sc ch ih =>
    intro hwf
    rcases wf_parts hwf with ⟨hnd, hmemwf⟩
    rw [addCmds_eq]
    simp only [cat2]
    rw [applyCmds_append, applyCmds_append]
    have hownS : applyCmds applySet (emptyNode (CfgNode.name (.mk n vs cm d df sc ch)))
        (if vs = [] then [⟨[], none⟩] else vs.map (fun v => ⟨[], some v⟩)) =
        .mk n (vs.foldl addValue []) none false false false [] := by
      by_cases hvs : vs = []
      · subst hvs
        rw [if_pos rfl, applyCmds_cons, applyCmds_nil]
        rfl
      · rw [if_neg hvs]
        exact rootSets vs [] n none false false false []
    rw [hownS]
    rw [buildListS ch n (vs.foldl addValue []) none false false false [] hnd
      (fun c _ => by simp)]
    rw [List.nil_append]
    have htail : ∀ cmv : Option String,
        applyCmds applyComment
          (.mk n (vs.foldl addValue []) cmv false false false
            (ch.map (fun c => applyCmds applySet (emptyNode c.name) (addCmds [] c).1)))
          ((addCmdsList [] ch).2) =
          .mk n (vs.foldl addValue []) cmv false false false (ch.map buildOf) := by
      intro cmv
      rw [buildListC ch n (vs.foldl addValue []) cmv false false false _ hnd]
      congr 1
      rw [List.map_map]
      apply List.map_congr_left
      intro c hc
      have hname : (applyCmds applySet (emptyNode c.name) (addCmds [] c).1).name = c.name :=
        applyCmds_name _ applySet_name _ _
      simp only [Function.comp, hname]
      rw [lookupSelf hnd hc]
      exact ih c hc (hmemwf c hc)
    rw [buildOf, buildOfList_eq_map]
    cases cm with
    | some c =>
      rw [show applyCmds applyComment
          (.mk n (vs.foldl addValue []) none false false false
            (ch.map (fun c => applyCmds applySet (emptyNode c.name) (addCmds [] c).1)))
          [⟨[], some c⟩] =
          .mk n (vs.foldl addValue []) (some c) false false false
            (ch.map (fun c => applyCmds applySet (emptyNode c.name) (addCmds [] c).1))
        from rootCom (some c) n _ none false false false _]
      exact htail (some c)
    | none =>
      rw [applyCmds_nil]
      exact htail none

theorem dName_delDiff (c : CfgNode) : dName (delDiff c) = c.name := rfl

theorem dName_addDiff (c : CfgNode) : dName (addDiff c) = c.name := rfl

theorem dStatus_delDiff (c : CfgNode) : dStatus (delDiff c) = .deleted := rfl

theorem dStatus_addDiff (c : CfgNode) : dStatus (addDiff c) = .added := rfl

theorem dName_diffNodes (a b : CfgNode) : dName (diffNodes a b) = a.name := by
  rw [diffNodes_def]
  rfl

theorem dStatus_diffNodes (a b : CfgNode) :
    dStatus (diffNodes a b) = if leafEq a b then .unchanged else .changed := by
  rw [diffNodes_def]
  by_cases h : leafEq a b <;> simp [h, dStatus]

theorem lookupD_append (l1 l2 : List DiffNode) (s : String) :
    lookupD (l1 ++ l2) s = (lookupD l1 s).or (lookupD l2 s) := by
  simp [lookupD, List.find?_append]

theorem lookupD_map_self {F : CfgNode → DiffNode} (hF : ∀ c, dName (F c) = c.name)
    {ch : List CfgNode} {c : CfgNode}
    (hnd : (ch.map CfgNode.name).Nodup) (hc : c ∈ ch) :
    lookupD (ch.map F) c.name = some (F c) := by
  have hpred : (fun d => dName d == c.name) ∘ F = (fun x => x.name == c.name) := by
    funext x
    simp [Function.comp, hF]
  rw [lookupD, List.find?_map, hpred]
  have := lookupSelf hnd hc
  rw [lookupChild] at this
  rw [this]
  rfl

theorem dName_matchedKid (b c : CfgNode) : dName (matchedKid b c) = c.name := by
  rw [matchedKid]
  cases lookupChild b.children c.name with
  | some c2 => exact dName_diffNodes c c2
  | none => rfl

theorem diffNodes_def2 (a b : CfgNode) :
    diffNodes a b =
      .mk a.name (if leafEq a b then .unchanged else .changed)
        (a.values.filter (fun v => !(b.values.contains v)))
        (b.values.filter (fun v => !(a.values.contains v)))
        (a.comment != b.comment) b.comment none
        b.values b.secretMark b.dflt
        (dkidsA a.children b ++ dkidsB a.children b) := by
  rw [diffNodes_def, dkidsA, dkidsB]
  rfl

theorem applyResult_def (a b : CfgNode) :
    applyResult a b =
      .mk a.name (finalValsOf a.values b.values) b.comment a.deact a.dflt a.secretMark
        (((a.children.map (fun c =>
          match lookupChild b.children c.name with
          | some c2 => some (applyResult c c2)
          | none => (none : Option CfgNode))).reduceOption)
         ++ (b.children.filter (fun c => (lookupChild a.children c.name).isNone)).map buildOf) := by
  cases a with
  | mk an av ac ad adf asc ach =>
    rw [applyResult]
    simp [CfgNode.children, CfgNode.name, List.attach_map_coe]

theorem wf_parts2 {t : CfgNode} (h : wf t = true) :
    (t.children.map CfgNode.name).Nodup ∧ ∀ c ∈ t.children, wf c = true := by
  cases t with
  | mk n vs cm d df sc ch => exact wf_parts h

theorem dkidsA_names (ach : List CfgNode) (b : CfgNode) :
    (dkidsA ach b).map dName = ach.map CfgNode.name := by
  rw [dkidsA, List.map_map]
  apply List.map_congr_left
  intro c _
  exact dName_matchedKid b c

theorem dkidsB_names (ach : List CfgNode) (b : CfgNode) :
    (dkidsB ach b).map dName =
      (b.children.filter (fun c => (lookupChild ach c.name).isNone)).map CfgNode.name := by
  rw [dkidsB, List.map_map]
  rfl

theorem filterB_names_nodup (ach : List CfgNode) (b : CfgNode)
    (hndB : (b.children.map CfgNode.name).Nodup) :
    ((b.children.filter (fun c => (lookupChild ach c.name).isNone)).map CfgNode.name).Nodup :=
  List.Nodup.sublist (List.Sublist.map CfgNode.name (List.filter_sublist _)) hndB

theorem filterB_names_disjoint (ach : List CfgNode) (b : CfgNode) {c : CfgNode}
    (hc : c ∈ b.children.filter (fun c => (lookupChild ach c.name).isNone)) :
    c.name ∉ ach.map CfgNode.name := by
  have hG := List.of_mem_filter hc
  simp only [Option.isNone_iff_eq_none] at hG
  rw [← lookup_isSome_iff, hG]
  simp

theorem ds_nodup (ach : List CfgNode) (b : CfgNode)
    (hndA : (ach.map CfgNode.name).Nodup)
    (hndB : (b.children.map CfgNode.name).Nodup) :
    ((dkidsA ach b ++ dkidsB ach b).map dName).Nodup := by
  rw [List.map_append, dkidsA_names, dkidsB_names]
  rw [List.nodup_append]
  refine ⟨hndA, filterB_names_nodup ach b hndB, ?_⟩
  intro s hsA hsB
  rw [List.mem_map] at hsB
  rcases hsB with ⟨c, hc, rfl⟩
  exact filterB_names_disjoint ach b hc hsA

theorem matchedKid_status_ne_added (b c : CfgNode) :
    dStatus (matchedKid b c) ≠ .added := by
  rw [matchedKid]
  cases lookupChild b.children c.name with
  | some c2 =>
    rw [dStatus_diffNodes]
    by_cases h : leafEq c c2 <;> simp [h]
  | none => simp [dStatus_delDiff]

theorem delXform_name {ds : List DiffNode} {x y : CfgNode}
    (h : delXform ds x = some y) : y.name = x.name := by
  rw [delXform] at h
  rcases hl : lookupD ds x.name with _ | dd
  · rw [hl] at h
    cases h
    rfl
  · rw [hl] at h
    rcases hst : dStatus dd with _ | _ | _ | _
    · simp only [hst, Option.some.injEq] at h
      rw [← h]
      exact applyCmds_name _ applyDelete_name _ _
    · simp only [hst, Option.some.injEq] at h
      rw [← h]
    · simp only [hst] at h
      exact Option.noConfusion h
    · simp only [hst, Option.some.injEq] at h
      rw [← h]
      exact applyCmds_name _ applyDelete_name _ _

theorem builds_append (l1 l2 : List DiffNode) :
    builds (l1 ++ l2) = builds l1 ++ builds l2 := by
  rw [builds, builds, builds, List.filterMap_append]

theorem builds_dkidsA (ach : List CfgNode) (b : CfgNode) :
    builds (dkidsA ach b) = [] := by
  rw [builds, List.filterMap_eq_nil]
  intro dd hdd
  rw [dkidsA, List.mem_map] at hdd
  rcases hdd with ⟨c, _, rfl⟩
  have hne := matchedKid_status_ne_added b c
  rcases hst : dStatus (matchedKid b c) with _ | _ | _ | _
  · simp [hst]
  · exact absurd hst hne
  · simp [hst]
  · simp [hst]

theorem builds_dkidsB (ach : List CfgNode) (b : CfgNode) :
    builds (dkidsB ach b) =
      (b.children.filter (fun c => (lookupChild ach c.name).isNone)).map
        (fun c => applyCmds applySet (emptyNode c.name) (addCmds [] c).1) := by
  rw [builds, dkidsB, List.filterMap_map]
  rw [List.filterMap_eq_map_iff_forall_eq_some]
  intro c _
  rfl

theorem dStatus_diffNodes_or (a b : CfgNode) :
    dStatus (diffNodes a b) = .unchanged ∨ dStatus (diffNodes a b) = .changed := by
  rw [dStatus_diffNodes]
  by_cases h : leafEq a b <;> simp [h]

theorem lookupD_ds_matched {ch : List CfgNode} {b c : CfgNode}
    (hndA : (ch.map CfgNode.name).Nodup) (hc : c ∈ ch) :
    lookupD (dkidsA ch b ++ dkidsB ch b) c.name = some (matchedKid b c) := by
  rw [lookupD_append, dkidsA,
    lookupD_map_self (dName_matchedKid b) hndA hc]
  rfl

theorem lookupD_ds_added {ch : List CfgNode} {b c : CfgNode}
    (hndB : (b.children.map CfgNode.name).Nodup)
    (hc : c ∈ b.children.filter (fun c => (lookupChild ch c.name).isNone)) :
    lookupD (dkidsA ch b ++ dkidsB ch b) c.name = some (addDiff c) := by
  rw [lookupD_append]
  have h1 : lookupD (dkidsA ch b) c.name = none := by
    apply lookupD_not_mem
    rw [dkidsA_names]
    exact filterB_names_disjoint ch b hc
  rw [h1, dkidsB,
    lookupD_map_self dName_addDiff (filterB_names_nodup ch b hndB) hc]
  rfl

theorem delXform_compute {ds : List DiffNode} {x : CfgNode} {dd : DiffNode}
    (hl : lookupD ds x.name = some dd)
    (hst : dStatus dd = .unchanged ∨ dStatus dd = .changed) :
    delXform ds x = some (applyCmds applyDelete x (extractD [] dd).1) := by
  rw [delXform, hl]
  rcases hst with h | h <;> simp [h]

theorem delXform_deleted {ds : List DiffNode} {x : CfgNode} {dd : DiffNode}
    (hl : lookupD ds x.name = some dd) (hst : dStatus dd = .deleted) :
    delXform ds x = none := by
  rw [delXform, hl]
  simp [hst]

theorem setXform_compute {ds : List DiffNode} {x : CfgNode} {dd : DiffNode}
    (hl : lookupD ds x.name = some dd)
    (hst : dStatus dd = .unchanged ∨ dStatus dd = .changed) :
    setXform ds x = applyCmds applySet x (extractD [] dd).2.1 := by
  rw [setXform, hl]
  rcases hst with h | h <;> simp [h]

theorem comXform_compute {ds : List DiffNode} {x : CfgNode} {dd : DiffNode}
    (hl : lookupD ds x.name = some dd)
    (hst : dStatus dd = .unchanged ∨ dStatus dd = .changed) :
    comXform ds x = applyCmds applyComment x (extractD [] dd).2.2 := by
  rw [comXform, hl]
  rcases hst with h | h <;> simp [h]

theorem comXform_added {ds : List DiffNode} {x t : CfgNode} {dd : DiffNode}
    (hl : lookupD ds x.name = some dd) (hst : dStatus dd = .added)
    (han : dAddedN dd = some t) :
    comXform ds x = applyCmds applyComment x (addCmds [] t).2 := by
  rw [comXform, hl]
  simp [hst, han]

theorem hypAdded {ch : List CfgNode} {b : CfgNode}
    (hndA : (ch.map CfgNode.name).Nodup) :
    ∀ dd ∈ dkidsA ch b ++ dkidsB ch b, dStatus dd = .added →
      dName dd ∉ (ch.filterMap (delXform (dkidsA ch b ++ dkidsB ch b))).map CfgNode.name := by
  intro dd hdd hst
  rcases List.mem_append.mp hdd with hA | hB
  · rw [dkidsA, List.mem_map] at hA
    rcases hA with ⟨c, _, rfl⟩
    exact absurd hst (matchedKid_status_ne_added b c)
  · rw [dkidsB, List.mem_map] at hB
    rcases hB with ⟨c, hc, rfl⟩
    rw [dName_addDiff]
    intro hmem
    rw [List.mem_map] at hmem
    rcases hmem with ⟨y, hy, hyn⟩
    rw [List.mem_filterMap] at hy
    rcases hy with ⟨x, hx, hxy⟩
    have : c.name = x.name := by rw [← hyn, delXform_name hxy]
    exact filterB_names_disjoint ch b hc
      (this ▸ List.mem_map_of_mem CfgNode.name hx)

theorem hypMatched {ch : List CfgNode} {b : CfgNode}
    (hndA : (ch.map CfgNode.name).Nodup) :
    ∀ dd ∈ dkidsA ch b ++ dkidsB ch b,
      (dStatus dd = .unchanged ∨ dStatus dd = .changed) →
      dName dd ∈ (ch.filterMap (delXform (dkidsA ch b ++ dkidsB ch b))).map CfgNode.name := by
  intro dd hdd hst
  rcases List.mem_append.mp hdd with hA | hB
  · rw [dkidsA, List.mem_map] at hA
    rcases hA with ⟨c, hc, rfl⟩
    have hdx : delXform (dkidsA ch b ++ dkidsB ch b) c =
        some (applyCmds applyDelete c
          (extractD [] (matchedKid b c)).1) :=
      delXform_compute (lookupD_ds_matched hndA hc) hst
    rw [dName_matchedKid]
    rw [List.mem_map]
    refine ⟨applyCmds applyDelete c (extractD [] (matchedKid b c)).1,
      List.mem_filterMap.mpr ⟨c, hc, hdx⟩, applyCmds_name _ applyDelete_name _ _⟩
  · rw [dkidsB, List.mem_map] at hB
    rcases hB with ⟨c, _, rfl⟩
    rw [dStatus_addDiff] at hst
    rcases hst with h | h <;> cases h

theorem rootComIf (cmv ncm : Option String) (n : String) (vs : List String)
    (d df sc : Bool) (ch : List CfgNode) :
    applyCmds applyComment (.mk n vs cmv d df sc ch)
      (if (cmv != ncm) then [⟨[], ncm⟩] else []) =
      .mk n vs ncm d df sc ch := by
  by_cases hc : cmv = ncm
  · rw [if_neg (by simp [hc]), applyCmds_nil, hc]
  · rw [if_pos (by simp [hc])]
    exact rootCom ncm n vs cmv d df sc ch

theorem applyResult_mk2 (n : String) (vs : List String) (cm : Option String)
    (d df sc : Bool) (ch : List CfgNode) (bn : String) (bv : List String)
    (bc : Option String) (bd bdf bsc : Bool) (bch : List CfgNode) :
    applyResult (.mk n vs cm d df sc ch) (.mk bn bv bc bd bdf bsc bch) =
      .mk n (finalValsOf vs bv) bc d df sc
        (((ch.map (fun c =>
          match lookupChild bch c.name with
          | some c2 => some (applyResult c c2)
          | none => (none : Option CfgNode))).reduceOption)
         ++ (bch.filter (fun c => (lookupChild ch c.name).isNone)).map buildOf) :=
  applyResult_def _ _

theorem structEq : ∀ (a : CfgNode), ∀ b : CfgNode, wf a = true → wf b = true →
    apply3 a (get_cmds_diff a b) = applyResult a b := by
  intro a
  induction a using nodeInd with
  | h n vs cm d df sc ch ih =>
    intro b hwa hwb
    cases b with
    | mk bn bv bc bd bdf bsc bch =>
    rcases wf_parts hwa with ⟨hndA, hwfA⟩
    rcases wf_parts hwb with ⟨hndB2, hwfB2⟩
    have hndB : ((CfgNode.mk bn bv bc bd bdf bsc bch).children.map CfgNode.name).Nodup := hndB2
    have hwfB : ∀ c ∈ (CfgNode.mk bn bv bc bd bdf bsc bch).children, wf c = true := hwfB2
    have hnds : ((dkidsA ch (.mk bn bv bc bd bdf bsc bch) ++
        dkidsB ch (.mk bn bv bc bd bdf bsc bch)).map dName).Nodup :=
      ds_nodup ch _ hndA hndB
    rw [get_cmds_diff, diffNodes_def2]
    simp only [CfgNode.values, CfgNode.comment, CfgNode.children, CfgNode.name,
      CfgNode.deact, CfgNode.dflt, CfgNode.secretMark]
    have hextract : extractD []
        (.mk n (if leafEq (.mk n vs cm d df sc ch) (.mk bn bv bc bd bdf bsc bch)
            then .unchanged else .changed)
          (vs.filter (fun v => !(bv.contains v)))
          (bv.filter (fun v => !(vs.contains v)))
          (cm != bc) bc none bv bsc bdf
          (dkidsA ch (.mk bn bv bc bd bdf bsc bch) ++ dkidsB ch (.mk bn bv bc bd bdf bsc bch))) =
        cat3 ((vs.filter (fun v => !(bv.contains v))).map (fun v => ⟨[], some v⟩),
              (bv.filter (fun v => !(vs.contains v))).map (fun v => ⟨[], some v⟩),
              if (cm != bc) then [⟨[], bc⟩] else [])
             (extractDList [] (dkidsA ch (.mk bn bv bc bd bdf bsc bch) ++
               dkidsB ch (.mk bn bv bc bd bdf bsc bch))) := by
      by_cases hle : leafEq (.mk n vs cm d df sc ch) (.mk bn bv bc bd bdf bsc bch)
      · rw [if_pos hle]
        exact extractD_unchanged [] n _ _ _ _ _ _ _ _ _
      · rw [if_neg hle]
        exact extractD_changed [] n _ _ _ _ _ _ _ _ _
    rw [hextract]
    simp only [apply3, cat3]
    rw [applyCmds_append, applyCmds_append, applyCmds_append]
    rw [rootDels]
    rw [evalD (dkidsA ch (.mk bn bv bc bd bdf bsc bch) ++
      dkidsB ch (.mk bn bv bc bd bdf bsc bch)) n _ cm d df sc ch hnds]
    rw [rootSets]
    rw [evalS (dkidsA ch (.mk bn bv bc bd bdf bsc bch) ++
      dkidsB ch (.mk bn bv bc bd bdf bsc bch)) n _ cm d df sc _ hnds
      (hypAdded hndA) (hypMatched hndA)]
    rw [rootComIf]
    rw [evalC (dkidsA ch (.mk bn bv bc bd bdf bsc bch) ++
      dkidsB ch (.mk bn bv bc bd bdf bsc bch)) n _ bc d df sc _ hnds]
    rw [applyResult_mk2]
    rw [show finalValsOf vs bv =
      (bv.filter (fun v => !(vs.contains v))).foldl addValue
        ((vs.filter (fun v => !(bv.contains v))).foldl
          (fun acc v => acc.filter (fun w => w ≠ v)) vs) from rfl]
    congr 1
    rw [List.map_append, List.map_map, List.map_filterMap]
    have hredu : (ch.map (fun c =>
        match lookupChild bch c.name with
        | some c2 => some (applyResult c c2)
        | none => (none : Option CfgNode))).reduceOption =
        ch.filterMap (fun c =>
          match lookupChild bch c.name with
          | some c2 => some (applyResult c c2)
          | none => none) := by
      rw [List.reduceOption, List.filterMap_map]
      congr 1
    rw [hredu]
    congr 1
    · apply List.filterMap_congr
      intro c hc
      cases hl : lookupChild bch c.name with
      | none =>
        have hmk : matchedKid (.mk bn bv bc bd bdf bsc bch) c = delDiff c := by
          rw [matchedKid]
          simp only [CfgNode.children]
          rw [hl]
        rw [delXform_deleted (lookupD_ds_matched hndA hc)
          (by rw [hmk]; rfl)]
        simp only [hl, Option.map_none']
      | some c2 =>
        have hmk : matchedKid (.mk bn bv bc bd bdf bsc bch) c = diffNodes c c2 := by
          rw [matchedKid]
          simp only [CfgNode.children]
          rw [hl]
        have hsts : dStatus (matchedKid (.mk bn bv bc bd bdf bsc bch) c) = .unchanged ∨
            dStatus (matchedKid (.mk bn bv bc bd bdf bsc bch) c) = .changed := by
          rw [hmk]
          exact dStatus_diffNodes_or c c2
        have hld := @lookupD_ds_matched _ (.mk bn bv bc bd bdf bsc bch) _ hndA hc
        rw [delXform_compute hld hsts]
        simp only [Option.map_some', Function.comp]
        have hn1 : (applyCmds applyDelete c
            (extractD [] (matchedKid (.mk bn bv bc bd bdf bsc bch) c)).1).name = c.name :=
          applyCmds_name _ applyDelete_name _ _
        rw [setXform_compute (by rw [hn1]; exact hld) hsts]
        have hn2 : (applyCmds applySet
            (applyCmds applyDelete c (extractD [] (matchedKid (.mk bn bv bc bd bdf bsc bch) c)).1)
            (extractD [] (matchedKid (.mk bn bv bc bd bdf bsc bch) c)).2.1).name = c.name := by
          rw [applyCmds_name _ applySet_name, hn1]
        rw [comXform_compute (by rw [hn2]; exact hld) hsts]
        rw [hmk]
        rw [show applyCmds applyComment (applyCmds applySet
            (applyCmds applyDelete c (extractD [] (diffNodes c c2)).1)
            (extractD [] (diffNodes c c2)).2.1)
            (extractD [] (diffNodes c c2)).2.2 =
          apply3 c (get_cmds_diff c c2) from rfl]
        rw [ih c hc c2 (hwfA c hc) (hwfB2 c2 (List.mem_of_find?_eq_some hl))]
    · rw [builds_append, builds_dkidsA, List.nil_append, builds_dkidsB]
      simp only [CfgNode.children]
      rw [List.map_map]
      apply List.map_congr_left
      intro c hc
      have hBname : (applyCmds applySet (emptyNode c.name) (addCmds [] c).1).name = c.name :=
        applyCmds_name _ applySet_name _ _
      have hld : lookupD (dkidsA ch (.mk bn bv bc bd bdf bsc bch) ++
          dkidsB ch (.mk bn bv bc bd bdf bsc bch)) c.name = some (addDiff c) :=
        lookupD_ds_added hndB (by simpa only [CfgNode.children] using hc)
      simp only [Function.comp]
      rw [comXform_added (by rw [hBname]; exact hld) (dStatus_addDiff c) rfl]
      exact buildNode c (hwfB2 c (List.mem_of_mem_filter hc))

theorem mem_addValue (vs : List String) (a x : String) :
    x ∈ addValue vs a ↔ x ∈ vs ∨ x = a := by
  rw [addValue]
  by_cases hc : vs.contains a
  · rw [if_pos hc]
    have ha : a ∈ vs := by simpa using hc
    constructor
    · exact Or.inl
    · rintro (h | rfl)
      · exact h
      · exact ha
  · rw [if_neg hc]
    simp

theorem mem_foldl_addValue (A : List String) :
    ∀ (vs : List String) (x : String),
      x ∈ A.foldl addValue vs ↔ x ∈ vs ∨ x ∈ A := by
  induction A with
  | nil => simp
  | cons a A ih =>
    intro vs x
    rw [List.foldl_cons, ih, mem_addValue]
    simp only [List.mem_cons]
    tauto

theorem mem_foldl_erase (R : List String) :
    ∀ (vs : List String) (x : String),
      x ∈ R.foldl (fun acc v => acc.filter (fun w => w ≠ v)) vs ↔ x ∈ vs ∧ x ∉ R := by
  induction R with
  | nil => simp
  | cons v R ih =>
    intro vs x
    rw [List.foldl_cons, ih]
    simp only [List.mem_filter, List.mem_cons, decide_eq_true_eq]
    constructor
    · rintro ⟨⟨hv, hne⟩, hR⟩
      exact ⟨hv, by
        rintro (rfl | h)
        · exact hne rfl
        · exact hR h⟩
    · rintro ⟨hv, hnot⟩
      exact ⟨⟨hv, fun he => hnot (Or.inl he)⟩, fun h => hnot (Or.inr h)⟩

theorem mem_finalValsOf (av bv : List String) (v : String) :
    v ∈ finalValsOf av bv ↔ v ∈ bv := by
  have h1 : ∀ w, ((!(bv.contains w)) = true) ↔ w ∉ bv := by intro w; simp
  have h2 : ∀ w, ((!(av.contains w)) = true) ↔ w ∉ av := by intro w; simp
  rw [finalValsOf, mem_foldl_addValue, mem_foldl_erase]
  simp only [List.mem_filter, h1, h2]
  constructor
  · rintro (⟨hav, hn⟩ | ⟨hbv2, _⟩)
    · by_contra hnb
      exact hn ⟨hav, hnb⟩
    · exact hbv2
  · intro hb
    by_cases hva : v ∈ av
    · exact Or.inl ⟨hva, fun hp => hp.2 hb⟩
    · exact Or.inr ⟨hb, hva⟩

theorem valsEq_final (av bv : List String) :
    valsEq (finalValsOf av bv) bv = true := by
  rw [valsEq, Bool.and_eq_true, List.all_eq_true, List.all_eq_true]
  constructor
  · intro v hv
    have := (mem_finalValsOf av bv v).mp hv
    simpa using this
  · intro v hv
    have : v ∈ finalValsOf av bv := (mem_finalValsOf av bv v).mpr hv
    simpa using this

theorem applyResult_name (a b : CfgNode) : (applyResult a b).name = a.name := by
  rw [applyResult_def]
  rfl

theorem buildOf_name (c : CfgNode) : (buildOf c).name = c.name := by
  cases c with
  | mk n vs cm d df sc ch => rw [buildOf]; rfl

theorem buildOfEq : ∀ c : CfgNode, wf c = true → treeEqF false (buildOf c) c = true := by
  intro c
  induction c using nodeInd with
  | h n vs cm d df sc ch ih =>
    intro hwf
    rcases wf_parts hwf with ⟨hnd, hmemwf⟩
    rw [buildOf, buildOfList_eq_map, treeEqF_def]
    simp only [Bool.and_eq_true, CfgNode.values, CfgNode.comment, CfgNode.children,
      CfgNode.deact, CfgNode.dflt, CfgNode.secretMark]
    refine ⟨⟨⟨⟨?_, by simp⟩, by simp⟩, ?_⟩, ?_⟩
    · rw [valsEq, Bool.and_eq_true, List.all_eq_true, List.all_eq_true]
      constructor
      · intro v hv
        rw [mem_foldl_addValue] at hv
        simp only [List.not_mem_nil, false_or] at hv
        simpa using hv
      · intro v hv
        have : v ∈ vs.foldl addValue [] := by
          rw [mem_foldl_addValue]
          exact Or.inr hv
        simpa using this
    · rw [List.all_eq_true]
      intro y hy
      rw [List.mem_map] at hy
      rcases hy with ⟨c, hc, rfl⟩
      rw [buildOf_name, lookupSelf hnd hc]
      simpa [Option.any] using ih c hc (hmemwf c hc)
    · rw [List.all_eq_true]
      intro c hc
      rw [lookup_isSome_iff]
      rw [show (ch.map buildOf).map CfgNode.name = ch.map CfgNode.name from by
        rw [List.map_map]
        apply List.map_congr_left
        intro x _
        exact buildOf_name x]
      exact List.mem_map_of_mem CfgNode.name hc

theorem treeEqF_mk2 (fl : Bool) (n : String) (vs : List String) (cm : Option String)
    (d df sc : Bool) (ch : List CfgNode) (bn : String) (bv : List String)
    (bc : Option String) (bd bdf bsc : Bool) (bch : List CfgNode) :
    treeEqF fl (.mk n vs cm d df sc ch) (.mk bn bv bc bd bdf bsc bch) =
      (valsEq vs bv && (cm == bc)
       && (!fl || (d == bd && df == bdf && sc == bsc))
       && ch.all (fun c =>
            (lookupChild bch c.name).any (fun c2 => treeEqF fl c c2))
       && bch.all (fun c => (lookupChild ch c.name).isSome)) :=
  treeEqF_def fl _ _

theorem roundEq : ∀ a : CfgNode, ∀ b : CfgNode, wf a = true → wf b = true →
    treeEqF false (applyResult a b) b = true := by
  intro a
  induction a using nodeInd with
  | h n vs cm d df sc ch ih =>
    intro b hwa hwb
    cases b with
    | mk bn bv bc bd bdf bsc bch =>
    rcases wf_parts hwa with ⟨hndA, hwfA⟩
    rcases wf_parts hwb with ⟨hndB, hwfB⟩
    rw [applyResult_mk2, treeEqF_mk2]
    simp only [Bool.and_eq_true]
    refine ⟨⟨⟨⟨?_, by simp⟩, by simp⟩, ?_⟩, ?_⟩
    · exact valsEq_final vs bv
    · rw [List.all_eq_true]
      intro y hy
      rw [List.mem_append] at hy
      rcases hy with hy | hy
      · rw [List.reduceOption, List.filterMap_map, List.mem_filterMap] at hy
        rcases hy with ⟨c, hc, heq⟩
        simp only [Function.comp, id] at heq
        cases hl : lookupChild bch c.name with
        | none =>
          rw [hl] at heq
          cases heq
        | some c2 =>
          rw [hl] at heq
          simp only [Option.some.injEq] at heq
          rw [← heq, applyResult_name, hl]
          simpa [Option.any] using
            ih c hc c2 (hwfA c hc) (hwfB c2 (List.mem_of_find?_eq_some hl))
      · rw [List.mem_map] at hy
        rcases hy with ⟨c, hc, rfl⟩
        rw [buildOf_name, lookupSelf hndB (List.mem_of_mem_filter hc)]
        simpa [Option.any] using buildOfEq c (hwfB c (List.mem_of_mem_filter hc))
    · rw [List.all_eq_true]
      intro cb hcb
      rw [lookup_isSome_iff, List.map_append, List.mem_append]
      cases hl : lookupChild ch cb.name with
      | some c =>
        left
        have hcmem : c ∈ ch := List.mem_of_find?_eq_some hl
        have hcname : c.name = cb.name := by
          have := List.find?_some hl
          simpa using this
        have hlb : lookupChild bch c.name = some cb := by
          rw [hcname]
          exact lookupSelf hndB hcb
        rw [List.reduceOption, List.filterMap_map]
        refine List.mem_map.mpr ⟨applyResult c cb, ?_, by rw [applyResult_name, hcname]⟩
        rw [List.mem_filterMap]
        refine ⟨c, hcmem, ?_⟩
        simp only [Function.comp, id, hlb]
      | none =>
        right
        rw [List.map_map]
        refine List.mem_map.mpr ⟨cb, ?_, by
          simp only [Function.comp]
          exact buildOf_name cb⟩
        rw [List.mem_filter]
        refine ⟨hcb, ?_⟩
        rw [hl]
        rfl

theorem lookupD_map {F : CfgNode → DiffNode} (hF : ∀ c, dName (F c) = c.name)
    (ch : List CfgNode) (s : String) :
    lookupD (ch.map F) s = (lookupChild ch s).map F := by
  have hpred : (fun d => dName d == s) ∘ F = (fun x => x.name == s) := by
    funext x
    simp [Function.comp, hF]
  rw [lookupD, List.find?_map, hpred]
  rfl

theorem lookup_name {ch : List CfgNode} {s : String} {c : CfgNode}
    (h : lookupChild ch s = some c) : c.name = s := by
  have := List.find?_some h
  simpa using this

theorem nodeAt_cons {t : CfgNode} {s : String} {r : List String} :
    nodeAt t (s :: r) =
      match lookupChild t.children s with
      | some c => nodeAt c r
      | none => none := by
  cases t
  rfl

theorem findD_cons {d : DiffNode} {s : String} {r : List String} :
    findD d (s :: r) =
      match lookupD (dChildren d) s with
      | some c => findD c r
      | none => none := by
  cases d
  rfl

theorem dChildren_diffNodes (a b : CfgNode) :
    dChildren (diffNodes a b) = dkidsA a.children b ++ dkidsB a.children b := by
  rw [diffNodes_def2]
  rfl

theorem lookupD_dkids (a b : CfgNode) (s : String) :
    lookupD (dkidsA a.children b ++ dkidsB a.children b) s =
      match lookupChild a.children s with
      | some ka => some (matchedKid b ka)
      | none =>
        match lookupChild (b.children.filter
          (fun c => (lookupChild a.children c.name).isNone)) s with
        | some kb => some (addDiff kb)
        | none => none := by
  rw [lookupD_append, dkidsA, dkidsB,
    lookupD_map (dName_matchedKid b), lookupD_map dName_addDiff]
  cases lookupChild a.children s with
  | some ka => rfl
  | none =>
    cases lookupChild (b.children.filter
      (fun c => (lookupChild a.children c.name).isNone)) s <;> rfl

theorem findD_matched : ∀ (P : List String) (a b x y : CfgNode),
    wf a = true → wf b = true →
    nodeAt a P = some x → nodeAt b P = some y →
    findD (diffNodes a b) P = some (diffNodes x y)
  | [], a, b, x, y, _, _, hx, hy => by
    rw [nodeAt] at hx hy
    cases hx
    cases hy
    rfl
  | s :: r, a, b, x, y, hwa, hwb, hx, hy => by
    rw [nodeAt_cons] at hx hy
    rcases wf_parts2 hwa with ⟨hndA, hwfA⟩
    rcases wf_parts2 hwb with ⟨hndB, hwfB⟩
    cases hka : lookupChild a.children s with
    | none =>
      simp only [hka] at hx
      cases hx
    | some ka =>
      simp only [hka] at hx
      cases hkb : lookupChild b.children s with
      | none =>
        simp only [hkb] at hy
        cases hy
      | some kb =>
        simp only [hkb] at hy
        have hmk : matchedKid b ka = diffNodes ka kb := by
          rw [matchedKid, lookup_name hka, hkb]
        rw [findD_cons, dChildren_diffNodes, lookupD_dkids]
        simp only [hka, hmk]
        exact findD_matched r ka kb x y
          (hwfA ka (List.mem_of_find?_eq_some hka))
          (hwfB kb (List.mem_of_find?_eq_some hkb)) hx hy

theorem valsEq_symm (xs ys : List String) : valsEq xs ys = valsEq ys xs := by
  rw [valsEq, valsEq, Bool.and_comm]

theorem leafEq_symm (a b : CfgNode) : leafEq a b = leafEq b a := by
  rw [leafEq, leafEq, valsEq_symm, @Bool.beq_comm _ _ _ a.comment b.comment,
    @Bool.beq_comm _ _ _ a.deact b.deact]

theorem dRemove_diffNodes (a b : CfgNode) :
    dRemove (diffNodes a b) = a.values.filter (fun v => !(b.values.contains v)) := by
  rw [diffNodes_def]
  rfl

theorem dAdd_diffNodes (a b : CfgNode) :
    dAdd (diffNodes a b) = b.values.filter (fun v => !(a.values.contains v)) := by
  rw [diffNodes_def]
  rfl

theorem findD_dead_end {c0 : DiffNode} {r : List String} {d : DiffNode}
    (hch : dChildren c0 = ([] : List DiffNode)) (hst : dStatus c0 ≠ .changed)
    (h : findD c0 r = some d) (hd : dStatus d = .changed) : False := by
  cases r with
  | nil =>
    rw [findD] at h
    cases h
    exact hst hd
  | cons s r =>
    rw [findD_cons, hch] at h
    simp only [lookupD, List.find?_nil] at h
    cases h

theorem diffSwap : ∀ (P : List String) (a b : CfgNode) (d : DiffNode),
    wf a = true → wf b = true →
    findD (diffNodes a b) P = some d → dStatus d = .changed →
    ∃ d2, findD (diffNodes b a) P = some d2 ∧ dStatus d2 = .changed ∧
      dRemove d2 = dAdd d ∧ dAdd d2 = dRemove d
  | [], a, b, d, hwa, hwb, hfd, hst => by
    rw [findD] at hfd
    cases hfd
    refine ⟨diffNodes b a, rfl, ?_, ?_, ?_⟩
    · rw [dStatus_diffNodes] at hst ⊢
      rw [leafEq_symm]
      by_cases hle : leafEq a b
      · rw [if_pos hle] at hst
        cases hst
      · rw [if_neg hle]
    · rw [dRemove_diffNodes, dAdd_diffNodes]
    · rw [dAdd_diffNodes, dRemove_diffNodes]
  | s :: r, a, b, d, hwa, hwb, hfd, hst => by
    rcases wf_parts2 hwa with ⟨hndA, hwfA⟩
    rcases wf_parts2 hwb with ⟨hndB, hwfB⟩
    rw [findD_cons, dChildren_diffNodes, lookupD_dkids] at hfd
    cases hka : lookupChild a.children s with
    | some ka =>
      rw [hka] at hfd
      simp only [] at hfd
      have hkan : ka.name = s := lookup_name hka
      cases hkb : lookupChild b.children ka.name with
      | some kb =>
        have hmk : matchedKid b ka = diffNodes ka kb := by
          rw [matchedKid, hkb]
        rw [hmk] at hfd
        have hkbn : kb.name = s := by rw [lookup_name hkb, hkan]
        rcases diffSwap r ka kb d
          (hwfA ka (List.mem_of_find?_eq_some hka))
          (hwfB kb (List.mem_of_find?_eq_some hkb)) hfd hst with
          ⟨d2, hfd2, hst2, hrem2, hadd2⟩
        refine ⟨d2, ?_, hst2, hrem2, hadd2⟩
        rw [findD_cons, dChildren_diffNodes, lookupD_dkids]
        have hkb2 : lookupChild b.children s = some kb := by
          rw [← hkan]
          exact hkb
        rw [hkb2]
        have hmk2 : matchedKid a kb = diffNodes kb ka := by
          rw [matchedKid, hkbn, hka]
        simp only [hmk2]
        exact hfd2
      | none =>
        have hmk : matchedKid b ka = delDiff ka := by
          rw [matchedKid, hkb]
        rw [hmk] at hfd
        exact (@findD_dead_end (delDiff ka) _ _ rfl
          (by rw [dStatus_delDiff]; intro h; cases h) hfd hst).elim
    | none =>
      rw [hka] at hfd
      simp only [] at hfd
      cases hkb : lookupChild (b.children.filter
          (fun c => (lookupChild a.children c.name).isNone)) s with
      | some kb =>
        rw [hkb] at hfd
        simp only [] at hfd
        exact (@findD_dead_end (addDiff kb) _ _ rfl
          (by rw [dStatus_addDiff]; intro h; cases h) hfd hst).elim
      | none =>
        rw [hkb] at hfd
        cases hfd

theorem dInvList_iff : ∀ ds : List DiffNode,
    dInvList ds = true ↔ ∀ d ∈ ds, dInv d = true
  | [] => by simp [dInvList]
  | d :: ds => by
    rw [dInvList, Bool.and_eq_true, dInvList_iff ds]
    simp

theorem dInv_parts {n : String} {st : Status} {rem add : List String}
    {cch : Bool} {ncm : Option String} {an : Option CfgNode}
    {sv : List String} {sec df : Bool} {ch : List DiffNode}
    (h : dInv (.mk n st rem add cch ncm an sv sec df ch) = true) :
    (ch.map dName).Nodup ∧
    (st = .deleted ∨ st = .added → ch = []) ∧
    (∀ d ∈ ch, dInv d = true) := by
  rw [dInv, Bool.and_eq_true, Bool.and_eq_true, Bool.and_eq_true] at h
  refine ⟨by simpa using h.1.1.1, ?_, (dInvList_iff ch).mp h.2⟩
  rintro (rfl | rfl)
  · have := h.1.1.2
    simpa [List.isEmpty_iff] using this
  · have := h.1.2
    simpa [List.isEmpty_iff] using this

theorem dInv_delDiff (c : CfgNode) : dInv (delDiff c) = true := by
  rw [delDiff, dInv]
  simp [dInvList]

theorem dInv_addDiff (c : CfgNode) : dInv (addDiff c) = true := by
  rw [addDiff, dInv]
  simp [dInvList]

theorem dInv_diffNodes : ∀ a : CfgNode, ∀ b : CfgNode, wf a = true → wf b = true →
    dInv (diffNodes a b) = true := by
  intro a
  induction a using nodeInd with
  | h n vs cm d df sc ch ih =>
    intro b hwa hwb
    rcases wf_parts hwa with ⟨hndA, hwfA⟩
    rcases wf_parts2 hwb with ⟨hndB, hwfB⟩
    rw [diffNodes_def2]
    simp only [CfgNode.children]
    have hkids : ∀ dd ∈ dkidsA ch b ++ dkidsB ch b, dInv dd = true := by
      intro dd hdd
      rcases List.mem_append.mp hdd with hA | hB
      · rw [dkidsA, List.mem_map] at hA
        rcases hA with ⟨c, hc, rfl⟩
        rw [matchedKid]
        cases hl : lookupChild b.children c.name with
        | some c2 =>
          exact ih c hc c2 (hwfA c hc) (hwfB c2 (List.mem_of_find?_eq_some hl))
        | none => exact dInv_delDiff c
      · rw [dkidsB, List.mem_map] at hB
        rcases hB with ⟨c, _, rfl⟩
        exact dInv_addDiff c
    by_cases hle : leafEq (.mk n vs cm d df sc ch) b
    · rw [if_pos hle, dInv, Bool.and_eq_true, Bool.and_eq_true, Bool.and_eq_true]
      exact ⟨⟨⟨by simpa using ds_nodup ch b hndA hndB, by simp⟩, by simp⟩,
        (dInvList_iff _).mpr hkids⟩
    · rw [if_neg hle, dInv, Bool.and_eq_true, Bool.and_eq_true, Bool.and_eq_true]
      exact ⟨⟨⟨by simpa using ds_nodup ch b hndA hndB, by simp⟩, by simp⟩,
        (dInvList_iff _).mpr hkids⟩

theorem addCmdsList_shape :
    ∀ (cs : List CfgNode) (p : List String) (cmd : Cmd),
    (∀ c ∈ cs, ∀ (p' : List String) (cmd' : Cmd),
      (cmd' ∈ (addCmds p' c).1 ∨ cmd' ∈ (addCmds p' c).2) → ∃ q, cmd'.path = p' ++ q) →
    (cmd ∈ (addCmdsList p cs).1 ∨ cmd ∈ (addCmdsList p cs).2) →
    ∃ q, cmd.path = p ++ q
  | [], p, cmd, _, h => by
    rw [addCmdsList_nil] at h
    rcases h with h | h <;> cases h
  | c :: cs, p, cmd, ih, h => by
    rw [addCmdsList_cons] at h
    simp only [cat2, List.mem_append] at h
    rcases h with (h | h) | (h | h)
    · rcases ih c (List.mem_cons_self _ _) _ cmd (Or.inl h) with ⟨q, hq⟩
      exact ⟨[c.name] ++ q, by rw [hq, List.append_assoc]⟩
    · exact addCmdsList_shape cs p cmd
        (fun c hc => ih c (List.mem_cons_of_mem _ hc)) (Or.inl h)
    · rcases ih c (List.mem_cons_self _ _) _ cmd (Or.inr h) with ⟨q, hq⟩
      exact ⟨[c.name] ++ q, by rw [hq, List.append_assoc]⟩
    · exact addCmdsList_shape cs p cmd
        (fun c hc => ih c (List.mem_cons_of_mem _ hc)) (Or.inr h)

theorem addCmds_shape : ∀ c : CfgNode, ∀ (p : List String) (cmd : Cmd),
    (cmd ∈ (addCmds p c).1 ∨ cmd ∈ (addCmds p c).2) → ∃ q, cmd.path = p ++ q := by
  intro c
  induction c using nodeInd with
  | h n vs cm d df sc ch ih =>
    intro p cmd h
    rw [addCmds_eq] at h
    simp only [cat2, List.mem_append] at h
    rcases h with (h | h) | (h | h)
    · by_cases hvs : vs = []
      · rw [if_pos hvs] at h
        simp only [List.mem_singleton] at h
        exact ⟨[], by rw [h, List.append_nil]⟩
      · rw [if_neg hvs] at h
        rw [List.mem_map] at h
        rcases h with ⟨v, _, rfl⟩
        exact ⟨[], by rw [List.append_nil]⟩
    · exact addCmdsList_shape ch p cmd (fun c hc => ih c hc) (Or.inl h)
    · cases cm with
      | some cc =>
        simp only [List.mem_singleton] at h
        exact ⟨[], by rw [h, List.append_nil]⟩
      | none => cases h
    · exact addCmdsList_shape ch p cmd (fun c hc => ih c hc) (Or.inr h)

theorem extractDList_shape :
    ∀ (ds : List DiffNode) (p : List String) (cmd : Cmd),
    (∀ d ∈ ds, ∀ (p' : List String) (cmd' : Cmd),
      (cmd' ∈ (extractD p' d).1 ∨ cmd' ∈ (extractD p' d).2.1 ∨
        cmd' ∈ (extractD p' d).2.2) → ∃ q, cmd'.path = p' ++ q) →
    (cmd ∈ (extractDList p ds).1 ∨ cmd ∈ (extractDList p ds).2.1 ∨
      cmd ∈ (extractDList p ds).2.2) →
    ∃ d' ∈ ds, ∃ q, cmd.path = (p ++ [dName d']) ++ q
  | [], p, cmd, _, h => by
    rw [extractDList_nil] at h
    rcases h with h | h | h <;> cases h
  | d :: ds, p, cmd, ih, h => by
    rw [extractDList_cons] at h
    simp only [cat3, List.mem_append] at h
    have hin : (cmd ∈ (extractD (p ++ [dName d]) d).1 ∨
        cmd ∈ (extractD (p ++ [dName d]) d).2.1 ∨
        cmd ∈ (extractD (p ++ [dName d]) d).2.2) ∨
        (cmd ∈ (extractDList p ds).1 ∨ cmd ∈ (extractDList p ds).2.1 ∨
          cmd ∈ (extractDList p ds).2.2) := by
      tauto
    rcases hin with hin | hin
    · rcases ih d (List.mem_cons_self _ _) _ cmd hin with ⟨q, hq⟩
      exact ⟨d, List.mem_cons_self _ _, q, hq⟩
    · rcases extractDList_shape ds p cmd
        (fun d hd => ih d (List.mem_cons_of_mem _ hd)) hin with ⟨d', hd', q, hq⟩
      exact ⟨d', List.mem_cons_of_mem _ hd', q, hq⟩

theorem extractD_shape : ∀ d : DiffNode, ∀ (p : List String) (cmd : Cmd),
    (cmd ∈ (extractD p d).1 ∨ cmd ∈ (extractD p d).2.1 ∨ cmd ∈ (extractD p d).2.2) →
    ∃ q, cmd.path = p ++ q := by
  intro d
  induction d using diffInd with
  | h n st rem add cch ncm an sv sec df ch ih =>
    intro p cmd h
    cases st with
    | deleted =>
      rw [extractD_deleted] at h
      rcases h with h | h | h
      · simp only [List.mem_singleton] at h
        exact ⟨[], by rw [h, List.append_nil]⟩
      · cases h
      · cases h
    | added =>
      cases an with
      | none =>
        rw [extractD_added_none] at h
        rcases h with h | h | h <;> cases h
      | some t =>
        rw [extractD_added] at h
        rcases h with h | h | h
        · cases h
        · exact addCmds_shape t p cmd (Or.inl h)
        · exact addCmds_shape t p cmd (Or.inr h)
    | unchanged =>
      rw [extractD_unchanged] at h
      simp only [cat3, List.mem_append] at h
      have hin : ((cmd ∈ rem.map (fun v => (⟨p, some v⟩ : Cmd)) ∨
          cmd ∈ add.map (fun v => (⟨p, some v⟩ : Cmd))) ∨
          cmd ∈ (if cch then [(⟨p, ncm⟩ : Cmd)] else [])) ∨
          (cmd ∈ (extractDList p ch).1 ∨ cmd ∈ (extractDList p ch).2.1 ∨
            cmd ∈ (extractDList p ch).2.2) := by
        tauto
      rcases hin with ((h | h) | h) | hin
      · rw [List.mem_map] at h
        rcases h with ⟨v, _, rfl⟩
        exact ⟨[], by rw [List.append_nil]⟩
      · rw [List.mem_map] at h
        rcases h with ⟨v, _, rfl⟩
        exact ⟨[], by rw [List.append_nil]⟩
      · by_cases hcch : cch
        · rw [if_pos hcch, List.mem_singleton] at h
          exact ⟨[], by rw [h, List.append_nil]⟩
        · rw [if_neg hcch] at h
          cases h
      · rcases extractDList_shape ch p cmd (fun d hd => ih d hd) hin with
          ⟨d', _, q, hq⟩
        exact ⟨[dName d'] ++ q, by rw [hq, List.append_assoc]⟩
    | changed =>
      rw [extractD_changed] at h
      simp only [cat3, List.mem_append] at h
      have hin : ((cmd ∈ rem.map (fun v => (⟨p, some v⟩ : Cmd)) ∨
          cmd ∈ add.map (fun v => (⟨p, some v⟩ : Cmd))) ∨
          cmd ∈ (if cch then [(⟨p, ncm⟩ : Cmd)] else [])) ∨
          (cmd ∈ (extractDList p ch).1 ∨ cmd ∈ (extractDList p ch).2.1 ∨
            cmd ∈ (extractDList p ch).2.2) := by
        tauto
      rcases hin with ((h | h) | h) | hin
      · rw [List.mem_map] at h
        rcases h with ⟨v, _, rfl⟩
        exact ⟨[], by rw [List.append_nil]⟩
      · rw [List.mem_map] at h
        rcases h with ⟨v, _, rfl⟩
        exact ⟨[], by rw [List.append_nil]⟩
      · by_cases hcch : cch
        · rw [if_pos hcch, List.mem_singleton] at h
          exact ⟨[], by rw [h, List.append_nil]⟩
        · rw [if_neg hcch] at h
          cases h
      · rcases extractDList_shape ch p cmd (fun d hd => ih d hd) hin with
          ⟨d', _, q, hq⟩
        exact ⟨[dName d'] ++ q, by rw [hq, List.append_assoc]⟩

theorem ne_of_head_shape {p0 : List String} {s n' : String} {r q q2 : List String}
    (hne : n' ≠ s) : (p0 ++ [n']) ++ q ≠ (p0 ++ [s]) ++ r ++ q2 := by
  intro h
  simp only [List.append_assoc] at h
  have h2 := List.append_cancel_left h
  rw [List.singleton_append, List.singleton_append] at h2
  exact hne (List.cons_eq_cons.mp h2).1

theorem ne_of_head_shape2 {p0 : List String} {s n' : String} {r q : List String}
    (hne : n' ≠ s) : (p0 ++ [n']) ++ q ≠ (p0 ++ [s]) ++ r := by
  intro h
  simp only [List.append_assoc] at h
  have h2 := List.append_cancel_left h
  rw [List.singleton_append, List.singleton_append] at h2
  exact hne (List.cons_eq_cons.mp h2).1

theorem delCountList :
    ∀ (ch : List DiffNode) (p0 : List String) (s : String) (r : List String)
      (dc dd : DiffNode),
    (ch.map dName).Nodup → (∀ d ∈ ch, dInv d = true) →
    lookupD ch s = some dc → findD dc r = some dd → dStatus dd = .deleted →
    (∀ p0' : List String,
      ((extractD p0' dc).1.count ⟨p0' ++ r, none⟩ = 1) ∧
      (∀ cmd, mem3 cmd (extractD p0' dc) → ∀ q, q ≠ [] → cmd.path ≠ p0' ++ r ++ q)) →
    ((extractDList p0 ch).1.count ⟨(p0 ++ [s]) ++ r, none⟩ = 1) ∧
    (∀ cmd, mem3 cmd (extractDList p0 ch) → ∀ q, q ≠ [] →
      cmd.path ≠ (p0 ++ [s]) ++ r ++ q)
  | [], p0, s, r, dc, dd, _, _, hlk, _, _, _ => by
    rw [lookupD] at hlk
    simp at hlk
  | d0 :: ds, p0, s, r, dc, dd, hnd, hinv, hlk, hfd, hst, hihn => by
    rw [List.map_cons, List.nodup_cons] at hnd
    rw [lookupD_cons] at hlk
    rw [extractDList_cons]
    by_cases hd0 : dName d0 = s
    · rw [if_pos (by simp [hd0])] at hlk
      have hdc : d0 = dc := by injection hlk
      subst hdc
      constructor
      · simp only [cat3, List.count_append]
        have hblock : (extractD (p0 ++ [dName d0]) d0).1.count ⟨(p0 ++ [s]) ++ r, none⟩ = 1 := by
          rw [hd0]
          exact (hihn (p0 ++ [s])).1
        have hrest : (extractDList p0 ds).1.count ⟨(p0 ++ [s]) ++ r, none⟩ = 0 := by
          rw [List.count_eq_zero]
          intro hmem
          rcases extractDList_shape ds p0 _ (fun d _ => extractD_shape d)
            (Or.inl hmem) with ⟨d', hd', q, hq⟩
          have hne : dName d' ≠ s := by
            intro he
            rw [← hd0] at he
            exact hnd.1 (he ▸ List.mem_map_of_mem dName hd')
          exact ne_of_head_shape2 hne hq.symm
        rw [hblock, hrest]
      · intro cmd hmem q hq
        have hself : ∀ h0 : mem3 cmd (extractD (p0 ++ [dName d0]) d0),
            cmd.path ≠ (p0 ++ [s]) ++ r ++ q := by
          intro h0
          exact (hihn (p0 ++ [s])).2 cmd (by rw [← hd0]; exact h0) q hq
        have hother : ∀ h0 : mem3 cmd (extractDList p0 ds),
            cmd.path ≠ (p0 ++ [s]) ++ r ++ q := by
          intro h0
          rcases extractDList_shape ds p0 _ (fun d _ => extractD_shape d) h0 with
            ⟨d', hd', q', hq'⟩
          have hne : dName d' ≠ s := by
            intro he
            rw [← hd0] at he
            exact hnd.1 (he ▸ List.mem_map_of_mem dName hd')
          rw [hq']
          exact ne_of_head_shape hne
        rcases hmem with hmem | hmem | hmem
        · simp only [cat3, List.mem_append] at hmem
          rcases hmem with hmem | hmem
          · exact hself (Or.inl hmem)
          · exact hother (Or.inl hmem)
        · simp only [cat3, List.mem_append] at hmem
          rcases hmem with hmem | hmem
          · exact hself (Or.inr (Or.inl hmem))
          · exact hother (Or.inr (Or.inl hmem))
        · simp only [cat3, List.mem_append] at hmem
          rcases hmem with hmem | hmem
          · exact hself (Or.inr (Or.inr hmem))
          · exact hother (Or.inr (Or.inr hmem))
    · rw [if_neg (by simp [hd0])] at hlk
      have hrec := delCountList ds p0 s r dc dd hnd.2
        (fun d hd => hinv d (List.mem_cons_of_mem _ hd)) hlk hfd hst hihn
      constructor
      · simp only [cat3, List.count_append]
        have hblock : (extractD (p0 ++ [dName d0]) d0).1.count ⟨(p0 ++ [s]) ++ r, none⟩ = 0 := by
          rw [List.count_eq_zero]
          intro hmem
          rcases extractD_shape d0 _ _ (Or.inl hmem) with ⟨q, hq⟩
          exact ne_of_head_shape2 hd0 hq.symm
        rw [hblock, hrec.1]
      · intro cmd hmem q hq
        have hself : ∀ h0 : mem3 cmd (extractD (p0 ++ [dName d0]) d0),
            cmd.path ≠ (p0 ++ [s]) ++ r ++ q := by
          intro h0
          rcases extractD_shape d0 _ _ h0 with ⟨q', hq'⟩
          rw [hq']
          exact ne_of_head_shape hd0
        rcases hmem with hmem | hmem | hmem
        · simp only [cat3, List.mem_append] at hmem
          rcases hmem with hmem | hmem
          · exact hself (Or.inl hmem)
          · exact hrec.2 cmd (Or.inl hmem) q hq
        · simp only [cat3, List.mem_append] at hmem
          rcases hmem with hmem | hmem
          · exact hself (Or.inr (Or.inl hmem))
          · exact hrec.2 cmd (Or.inr (Or.inl hmem)) q hq
        · simp only [cat3, List.mem_append] at hmem
          rcases hmem with hmem | hmem
          · exact hself (Or.inr (Or.inr hmem))
          · exact hrec.2 cmd (Or.inr (Or.inr hmem)) q hq

theorem self_ne_append {p0 q : List String} (hq : q ≠ []) : p0 ≠ p0 ++ q := by
  intro h
  apply hq
  have : p0 ++ ([] : List String) = p0 ++ q := by
    rw [List.append_nil]
    exact h
  exact (List.append_cancel_left this).symm

theorem delCount : ∀ (P : List String) (d : DiffNode) (p0 : List String) (dd : DiffNode),
    dInv d = true → findD d P = some dd → dStatus dd = .deleted →
    ((extractD p0 d).1.count ⟨p0 ++ P, none⟩ = 1) ∧
    (∀ cmd, mem3 cmd (extractD p0 d) → ∀ q, q ≠ [] → cmd.path ≠ p0 ++ P ++ q)
  | [], d, p0, dd, hinv, hfd, hst => by
    rw [findD] at hfd
    have hdd : d = dd := by injection hfd
    subst hdd
    cases d with
    | mk n st rem add cch ncm an sv sec df ch =>
      rw [show st = Status.deleted from hst]
      rw [extractD_deleted]
      constructor
      · rw [List.append_nil]
        simp
      · intro cmd hmem q hq
        rcases hmem with hmem | hmem | hmem
        · rw [List.mem_singleton] at hmem
          subst hmem
          rw [List.append_nil]
          exact self_ne_append hq
        · cases hmem
        · cases hmem
  | s :: r, d, p0, dd, hinv, hfd, hst => by
    cases d with
    | mk n st rem add cch ncm an sv sec df ch =>
      rw [findD_cons] at hfd
      rw [show dChildren (.mk n st rem add cch ncm an sv sec df ch) = ch from rfl] at hfd
      cases hlk : lookupD ch s with
      | none =>
        rw [hlk] at hfd
        cases hfd
      | some dc =>
        rw [hlk] at hfd
        simp only [] at hfd
        rcases dInv_parts hinv with ⟨hnd, hempty, hmeminv⟩
        have hdcmem : dc ∈ ch := List.mem_of_find?_eq_some hlk
        have hihn : ∀ p0' : List String,
            ((extractD p0' dc).1.count ⟨p0' ++ r, none⟩ = 1) ∧
            (∀ cmd, mem3 cmd (extractD p0' dc) → ∀ q, q ≠ [] →
              cmd.path ≠ p0' ++ r ++ q) :=
          fun p0' => delCount r dc p0' dd (hmeminv dc hdcmem) hfd hst
        have hlist := delCountList ch p0 s r dc dd hnd hmeminv hlk hfd hst hihn
        have hroots : ∀ (cs : Cmds3), cs = extractD p0
            (.mk n st rem add cch ncm an sv sec df ch) →
            cs = cat3 (rem.map (fun v => ⟨p0, some v⟩),
              add.map (fun v => ⟨p0, some v⟩),
              if cch then [⟨p0, ncm⟩] else []) (extractDList p0 ch) := by
          intro cs hcs
          cases st with
          | deleted =>
            rw [hempty (Or.inl rfl)] at hlk
            rw [lookupD] at hlk
            simp at hlk
          | added =>
            rw [hempty (Or.inr rfl)] at hlk
            rw [lookupD] at hlk
            simp at hlk
          | unchanged => rw [hcs, extractD_unchanged]
          | changed => rw [hcs, extractD_changed]
        have hext := hroots _ rfl
        rw [hext]
        rw [List.append_cons p0 s r]
        constructor
        · simp only [cat3, List.count_append]
          have h01 : (rem.map (fun v => (⟨p0, some v⟩ : Cmd))).count
              ⟨p0 ++ [s] ++ r, none⟩ = 0 := by
            rw [List.count_eq_zero]
            intro hmem
            rw [List.mem_map] at hmem
            rcases hmem with ⟨v, _, hv⟩
            have := congrArg Cmd.arg hv
            simp at this
          rw [h01, hlist.1]
        · intro cmd hmem q hq
          have hrootpath : cmd.path = p0 →
              cmd.path ≠ p0 ++ [s] ++ r ++ q := by
            intro hp
            rw [hp]
            rw [List.append_assoc, List.append_assoc]
            exact self_ne_append (by simp)
          rcases hmem with hmem | hmem | hmem
          · simp only [cat3, List.mem_append] at hmem
            rcases hmem with hmem | hmem
            · rw [List.mem_map] at hmem
              rcases hmem with ⟨v, _, hv⟩
              exact hrootpath (by rw [← hv])
            · have := hlist.2 cmd (Or.inl hmem) q hq
              simpa [List.append_assoc] using this
          · simp only [cat3, List.mem_append] at hmem
            rcases hmem with hmem | hmem
            · rw [List.mem_map] at hmem
              rcases hmem with ⟨v, _, hv⟩
              exact hrootpath (by rw [← hv])
            · have := hlist.2 cmd (Or.inr (Or.inl hmem)) q hq
              simpa [List.append_assoc] using this
          · simp only [cat3, List.mem_append] at hmem
            rcases hmem with hmem | hmem
            · by_cases hcch : cch
              · rw [if_pos hcch, List.mem_singleton] at hmem
                exact hrootpath (by rw [hmem])
              · rw [if_neg hcch] at hmem
                cases hmem
            · have := hlist.2 cmd (Or.inr (Or.inr hmem)) q hq
              simpa [List.append_assoc] using this

theorem allUnchangedList_iff : ∀ ds : List DiffNode,
    allUnchangedList ds = true ↔ ∀ d ∈ ds, allUnchanged d = true
  | [] => by simp [allUnchangedList]
  | d :: ds => by
    rw [allUnchangedList, Bool.and_eq_true, allUnchangedList_iff ds]
    simp

theorem filter_not_contains_self (l : List String) :
    l.filter (fun v => !(l.contains v)) = [] := by
  rw [List.filter_eq_nil]
  intro v hv
  simp [hv]

theorem diag_kids {ch : List CfgNode} (hnd : (ch.map CfgNode.name).Nodup) :
    dkidsA ch (.mk n vs cm d df sc ch) ++ dkidsB ch (.mk n vs cm d df sc ch) =
      ch.map (fun c => diffNodes c c) := by
  have hB : dkidsB ch (.mk n vs cm d df sc ch) = [] := by
    rw [dkidsB]
    simp only [CfgNode.children]
    rw [show ch.filter (fun c => (lookupChild ch c.name).isNone) = [] from by
      rw [List.filter_eq_nil]
      intro c hc
      rw [lookupSelf hnd hc]
      simp]
    rfl
  rw [hB, List.append_nil, dkidsA]
  apply List.map_congr_left
  intro c hc
  rw [matchedKid]
  simp only [CfgNode.children]
  rw [lookupSelf hnd hc]

theorem diag_diff : ∀ t : CfgNode, wf t = true →
    diffNodes t t =
      .mk t.name .unchanged [] [] false t.comment none t.values t.secretMark t.dflt
        (t.children.map (fun c => diffNodes c c)) := by
  intro t
  induction t using nodeInd with
  | h n vs cm d df sc ch _ =>
    intro hwf
    rcases wf_parts hwf with ⟨hnd, _⟩
    rw [diffNodes_def2]
    rw [if_pos (leafEq_refl _)]
    rw [filter_not_contains_self]
    simp only [CfgNode.children, CfgNode.name, CfgNode.values, CfgNode.comment,
      CfgNode.secretMark, CfgNode.dflt, bne_self_eq_false]
    rw [diag_kids hnd]

theorem diag_allUnchanged : ∀ t : CfgNode, wf t = true →
    allUnchanged (diffNodes t t) = true := by
  intro t
  induction t using nodeInd with
  | h n vs cm d df sc ch ih =>
    intro hwf
    rcases wf_parts hwf with ⟨hnd, hmemwf⟩
    rw [diag_diff _ hwf]
    rw [allUnchanged, Bool.and_eq_true]
    refine ⟨by simp, ?_⟩
    rw [allUnchangedList_iff]
    intro dd hdd
    simp only [CfgNode.children, List.mem_map] at hdd
    rcases hdd with ⟨c, hc, rfl⟩
    exact ih c hc (hmemwf c hc)

theorem extractDList_all_nil : ∀ (ds : List DiffNode) (p : List String),
    (∀ d ∈ ds, ∀ q, extractD q d = ([], [], [])) →
    extractDList p ds = ([], [], [])
  | [], p, _ => extractDList_nil p
  | d :: ds, p, h => by
    rw [extractDList_cons, h d (List.mem_cons_self _ _),
      extractDList_all_nil ds p (fun d hd => h d (List.mem_cons_of_mem _ hd))]
    rfl

theorem diag_cmds : ∀ t : CfgNode, wf t = true → ∀ p : List String,
    extractD p (diffNodes t t) = ([], [], []) := by
  intro t
  induction t using nodeInd with
  | h n vs cm d df sc ch ih =>
    intro hwf p
    rcases wf_parts hwf with ⟨_, hmemwf⟩
    rw [diag_diff _ hwf, extractD_unchanged]
    rw [extractDList_all_nil _ p (fun dd hdd => by
      simp only [CfgNode.children, List.mem_map] at hdd
      rcases hdd with ⟨c, hc, rfl⟩
      exact ih c hc (hmemwf c hc))]
    simp [cat3]

theorem w5_diff : diffNodes wA wB =
    .mk "root" .unchanged [] [] false none none [] false false [delDiff wX] := by
  rw [diffNodes_def]
  simp [wA, wB, wX, leafEq, valsEq, lookupChild, CfgNode.name, CfgNode.values,
    CfgNode.comment, CfgNode.deact, CfgNode.children, CfgNode.secretMark, CfgNode.dflt]

theorem cx_diff : diffNodes cxA cxB =
    .mk "root" .changed [] [] false none none [] false false [] := by
  rw [diffNodes_def]
  simp [cxA, cxB, leafEq, valsEq, lookupChild, CfgNode.name, CfgNode.values,
    CfgNode.comment, CfgNode.deact, CfgNode.children, CfgNode.secretMark, CfgNode.dflt]

theorem hasChange_mk (n : String) (st : Status) (rem add : List String) (cch : Bool)
    (ncm : Option String) (an : Option CfgNode) (sv : List String) (sec df : Bool)
    (ch : List DiffNode) :
    hasChange (.mk n st rem add cch ncm an sv sec df ch) =
      ((st != Status.unchanged) || hasChangeList ch) := by
  rw [hasChange]

theorem hasChangeList_cons (d : DiffNode) (ds : List DiffNode) :
    hasChangeList (d :: ds) = (hasChange d || hasChangeList ds) := by
  rw [hasChangeList]

theorem hasChangeList_of_mem {c : DiffNode} : ∀ {ch : List DiffNode}, c ∈ ch →
    hasChange c = true → hasChangeList ch = true
  | [], hc, _ => by cases hc
  | d :: ds, hc, h => by
    rw [hasChangeList_cons, Bool.or_eq_true]
    rcases List.mem_cons.mp hc with hc | hc
    · exact Or.inl (hc ▸ h)
    · exact Or.inr (hasChangeList_of_mem hc h)

theorem renderFull_mk (sd hs : Bool) (p : List String) (n : String) (st : Status)
    (rem add : List String) (cch : Bool) (ncm : Option String) (an : Option CfgNode)
    (sv : List String) (sec df : Bool) (ch : List DiffNode) :
    renderFull sd hs p (.mk n st rem add cch ncm an sv sec df ch) =
      if df && !sd then []
      else ⟨p, st, redact hs sec sv⟩ :: renderFullList sd hs p ch := by
  rw [renderFull]

theorem renderFullList_cons (sd hs : Bool) (p : List String) (d : DiffNode)
    (ds : List DiffNode) :
    renderFullList sd hs p (d :: ds) =
      renderFull sd hs (p ++ [dName d]) d ++ renderFullList sd hs p ds := by
  rw [renderFullList]

theorem renderCtx_mk (sd hs : Bool) (p : List String) (n : String) (st : Status)
    (rem add : List String) (cch : Bool) (ncm : Option String) (an : Option CfgNode)
    (sv : List String) (sec df : Bool) (ch : List DiffNode) :
    renderCtx sd hs p (.mk n st rem add cch ncm an sv sec df ch) =
      if !hasChange (.mk n st rem add cch ncm an sv sec df ch) then []
      else if df && !sd then []
      else ⟨p, st, redact hs sec sv⟩ :: renderCtxList sd hs p ch := by
  rw [renderCtx]

theorem renderCtxList_cons (sd hs : Bool) (p : List String) (d : DiffNode)
    (ds : List DiffNode) :
    renderCtxList sd hs p (d :: ds) =
      renderCtx sd hs (p ++ [dName d]) d ++ renderCtxList sd hs p ds := by
  rw [renderCtxList]

theorem renderCtx_hasChange {sd hs : Bool} {p : List String} {d : DiffNode} {l : RLine}
    (h : l ∈ renderCtx sd hs p d) : hasChange d = true := by
  by_cases hc : hasChange d = true
  · exact hc
  · exfalso
    cases d with
    | mk n st rem add cch ncm an sv sec df ch =>
      rw [renderCtx_mk] at h
      rw [Bool.not_eq_true] at hc
      rw [hc] at h
      simp at h

theorem ctxList_sub_fullList (sd hs : Bool) : ∀ (ch : List DiffNode) (p : List String)
    (l : RLine),
    (∀ c ∈ ch, ∀ p2 l2, l2 ∈ renderCtx sd hs p2 c → l2 ∈ renderFull sd hs p2 c) →
    l ∈ renderCtxList sd hs p ch → l ∈ renderFullList sd hs p ch
  | [], p, l, _, h => by rw [renderCtxList] at h; cases h
  | c :: cs, p, l, hsub, h => by
    rw [renderCtxList_cons, List.mem_append] at h
    rw [renderFullList_cons, List.mem_append]
    rcases h with h | h
    · exact Or.inl (hsub c (List.mem_cons_self _ _) _ _ h)
    · exact Or.inr (ctxList_sub_fullList sd hs cs p l
        (fun c2 hc2 => hsub c2 (List.mem_cons_of_mem _ hc2)) h)

theorem ctx_sub_full : ∀ (d : DiffNode) (sd hs : Bool) (p : List String) (l : RLine),
    l ∈ renderCtx sd hs p d → l ∈ renderFull sd hs p d := by
  intro d
  induction d using diffInd with
  | h n st rem add cch ncm an sv sec df ch ih =>
    intro sd hs p l hmem
    rw [renderCtx_mk] at hmem
    rw [renderFull_mk]
    by_cases hc : hasChange (.mk n st rem add cch ncm an sv sec df ch) = true
    · rw [hc] at hmem
      simp only [Bool.not_true, Bool.false_eq_true, if_false] at hmem
      by_cases hdf : (df && !sd) = true
      · rw [if_pos hdf] at hmem
        cases hmem
      · rw [if_neg hdf] at hmem ⊢
        rcases List.mem_cons.mp hmem with hmem | hmem
        · exact hmem ▸ List.mem_cons_self _ _
        · exact List.mem_cons_of_mem _
            (ctxList_sub_fullList sd hs ch p l (fun c hc2 p2 l2 => ih c hc2 sd hs p2 l2) hmem)
    · rw [Bool.not_eq_true] at hc
      rw [hc] at hmem
      simp at hmem

theorem fullList_changed_ctxList (sd hs : Bool) : ∀ (ch : List DiffNode) (p : List String)
    (l : RLine),
    (∀ c ∈ ch, ∀ p2, l ∈ renderFull sd hs p2 c → l ∈ renderCtx sd hs p2 c) →
    l ∈ renderFullList sd hs p ch →
    l ∈ renderCtxList sd hs p ch ∧ hasChangeList ch = true
  | [], p, l, _, h => by rw [renderFullList] at h; cases h
  | c :: cs, p, l, hsub, h => by
    rw [renderFullList_cons, List.mem_append] at h
    rw [renderCtxList_cons, List.mem_append, hasChangeList_cons, Bool.or_eq_true]
    rcases h with h | h
    · have h2 := hsub c (List.mem_cons_self _ _) _ h
      exact ⟨Or.inl h2, Or.inl (renderCtx_hasChange h2)⟩
    · have h2 := fullList_changed_ctxList sd hs cs p l
        (fun c2 hc2 => hsub c2 (List.mem_cons_of_mem _ hc2)) h
      exact ⟨Or.inr h2.1, Or.inr h2.2⟩

theorem full_changed_ctx : ∀ (d : DiffNode) (sd hs : Bool) (p : List String) (l : RLine),
    l.status ≠ .unchanged → l ∈ renderFull sd hs p d → l ∈ renderCtx sd hs p d := by
  intro d
  induction d using diffInd with
  | h n st rem add cch ncm an sv sec df ch ih =>
    intro sd hs p l hst hmem
    rw [renderFull_mk] at hmem
    rw [renderCtx_mk]
    by_cases hdf : (df && !sd) = true
    · rw [if_pos hdf] at hmem
      cases hmem
    · rw [if_neg hdf] at hmem
      rcases List.mem_cons.mp hmem with hmem | hmem
      · have hstu : (st != Status.unchanged) = true := by
          rw [bne_iff_ne]
          intro heq
          apply hst
          rw [hmem]
          exact heq
        have hc : hasChange (.mk n st rem add cch ncm an sv sec df ch) = true := by
          rw [hasChange_mk, Bool.or_eq_true]
          exact Or.inl hstu
        rw [hc]
        simp only [Bool.not_true, Bool.false_eq_true, if_false]
        rw [if_neg hdf]
        exact hmem ▸ List.mem_cons_self _ _
      · have h2 := fullList_changed_ctxList sd hs ch p l
          (fun c hc2 p2 => ih c hc2 sd hs p2 l hst) hmem
        have hc : hasChange (.mk n st rem add cch ncm an sv sec df ch) = true := by
          rw [hasChange_mk, Bool.or_eq_true]
          exact Or.inr h2.2
        rw [hc]
        simp only [Bool.not_true, Bool.false_eq_true, if_false]
        rw [if_neg hdf]
        exact List.mem_cons_of_mem _ h2.1

theorem valsEq_of_perm {xs ys : List String} (h : xs.Perm ys) : valsEq xs ys = true := by
  rw [valsEq, Bool.and_eq_true, List.all_eq_true, List.all_eq_true]
  constructor
  · intro v hv
    simpa using h.mem_iff.mp (by simpa using hv)
  · intro v hv
    simpa using h.mem_iff.mpr (by simpa using hv)

/-- Claim C1 (amended): for any two well-formed trees, applying the three
command sequences of get_cmds_diff to the first tree — deletes, then sets,
then comments — yields a tree equal to the second under the tree-equality
relation on children sets, values sets and comments at every path. The
flag part of the relation is dropped: the original claim fails for it. -/
theorem claim_C1 (a b : CfgNode) (ha : wf a = true) (hb : wf b = true) :
    treeEqF false (apply3 a (get_cmds_diff a b)) b = true := by
  rw [structEq a b ha hb]
  exact roundEq a b ha hb

/-- Claim C1, counterexample to the flag part: two trees that differ only
in the deactivation flag produce no commands at all, so applying the
command sequences cannot reproduce the flag state of the target, and the
round trip fails under the flag-inclusive tree-equality relation. -/
theorem claim_C1_cex :
    wf cxA = true ∧ wf cxB = true ∧
    treeEqF true (apply3 cxA (get_cmds_diff cxA cxB)) cxB = false := by
  refine ⟨by decide, by decide, ?_⟩
  have hcmds : get_cmds_diff cxA cxB = ([], [], []) := by
    rw [get_cmds_diff, cx_diff, extractD_changed]
    rfl
  rw [hcmds]
  have happ : apply3 cxA ([], [], []) = cxA := rfl
  rw [happ, treeEqF_def]
  decide

/-- Claim C1, witness of the amended theorem at concrete trees. -/
theorem claim_C1_witness :
    wf wA = true ∧ wf wB = true ∧
    treeEqF false (apply3 wA (get_cmds_diff wA wB)) wB = true :=
  ⟨by decide, by decide, claim_C1 wA wB (by decide) (by decide)⟩

/-- Claim C2: diffing a well-formed tree against itself classifies every
node of the diff result as Unchanged, and get_cmds_diff on the pair
produces an empty delete list, an empty set list and an empty comment
list. -/
theorem claim_C2 (t : CfgNode) (h : wf t = true) :
    allUnchanged (diffNodes t t) = true ∧ get_cmds_diff t t = ([], [], []) := by
  refine ⟨diag_allUnchanged t h, ?_⟩
  rw [get_cmds_diff]
  exact diag_cmds t h []

/-- Claim C2, witness at a concrete tree with a value, a comment and a
child. -/
theorem claim_C2_witness :
    wf w2t = true ∧
    (allUnchanged (diffNodes w2t w2t) = true ∧ get_cmds_diff w2t w2t = ([], [], [])) :=
  ⟨by decide, claim_C2 w2t (by decide)⟩

/-- Claim C3: a node classified Changed at path P by the diff of two
well-formed trees is classified Changed at P by the opposite-direction
diff, with the remove-set and add-set of values exactly swapped. -/
theorem claim_C3 (P : List String) (a b : CfgNode) (d : DiffNode)
    (ha : wf a = true) (hb : wf b = true)
    (hfd : findD (diffNodes a b) P = some d) (hst : dStatus d = .changed) :
    ∃ d2, findD (diffNodes b a) P = some d2 ∧ dStatus d2 = .changed ∧
      dRemove d2 = dAdd d ∧ dAdd d2 = dRemove d :=
  diffSwap P a b d ha hb hfd hst

/-- Claim C3, witness at two concrete single-value leaves. -/
theorem claim_C3_witness :
    wf w3a = true ∧ wf w3b = true ∧
    findD (diffNodes w3a w3b) [] = some (diffNodes w3a w3b) ∧
    dStatus (diffNodes w3a w3b) = .changed ∧
    (∃ d2, findD (diffNodes w3b w3a) [] = some d2 ∧ dStatus d2 = .changed ∧
      dRemove d2 = dAdd (diffNodes w3a w3b) ∧ dAdd d2 = dRemove (diffNodes w3a w3b)) :=
  ⟨by decide, by decide, rfl, by rw [dStatus_diffNodes]; decide,
    claim_C3 [] w3a w3b (diffNodes w3a w3b) (by decide) (by decide) rfl
      (by rw [dStatus_diffNodes]; decide)⟩

/-- Claim C4: command output is independent of hide_secret — the command
list produced by showConfig in command mode is the same for any two
settings of the flag, and the command lines of show_cmds_diff come from
get_cmds_diff, which takes no redaction flag at all; redaction exists
only in text rendering. -/
theorem claim_C4 (a b : CfgNode) (p : List String) (sd cd hs1 hs2 : Bool) :
    showConfig a b p sd hs1 cd true = showConfig a b p sd hs2 cd true ∧
    show_cmds_diff a b = cmdLines (get_cmds_diff a b) :=
  ⟨rfl, rfl⟩

/-- Claim C5: a node classified Deleted at path P by the diff of two
well-formed trees contributes exactly one delete command, with path P
itself, to the delete list of get_cmds_diff, and no delete, set or
comment command is emitted for any strict descendant of P. -/
theorem claim_C5 (a b : CfgNode) (P : List String) (dd : DiffNode)
    (ha : wf a = true) (hb : wf b = true)
    (hfd : findD (diffNodes a b) P = some dd) (hst : dStatus dd = .deleted) :
    (get_cmds_diff a b).1.count ⟨P, none⟩ = 1 ∧
    ∀ cmd, mem3 cmd (get_cmds_diff a b) → ∀ q, q ≠ [] → cmd.path ≠ P ++ q := by
  have h := delCount P (diffNodes a b) [] dd (dInv_diffNodes a b ha hb) hfd hst
  rw [get_cmds_diff]
  simpa using h

/-- Claim C5, witness: deleting the single child of a concrete tree. -/
theorem claim_C5_witness :
    (get_cmds_diff wA wB).1.count ⟨["x"], none⟩ = 1 ∧
    ∀ cmd, mem3 cmd (get_cmds_diff wA wB) → ∀ q, q ≠ [] → cmd.path ≠ ["x"] ++ q :=
  claim_C5 wA wB ["x"] (delDiff wX) (by decide) (by decide)
    (by rw [w5_diff]; rfl) rfl

/-- Claim C6: for any two trees and rendering flags, a line whose status
is not Unchanged appears in full-tree mode output exactly when it appears
in context-diff mode output — every changed path reported by full-tree
mode is reported by context-diff mode, and context-diff mode reports no
changed line beyond those of full-tree mode, whose line for a path carries
the status of the diff. -/
theorem claim_C6 (a b : CfgNode) (p0 : List String) (sd hs : Bool) (l : RLine)
    (hst : l.status ≠ .unchanged) :
    l ∈ show_cfg_diff a b p0 sd hs false ↔ l ∈ show_cfg_diff a b p0 sd hs true := by
  show l ∈ renderFull sd hs p0 (diffNodes a b) ↔ l ∈ renderCtx sd hs p0 (diffNodes a b)
  constructor
  · exact full_changed_ctx (diffNodes a b) sd hs p0 l hst
  · exact ctx_sub_full (diffNodes a b) sd hs p0 l

/-- Claim C6, witness: the changed root line of two concrete leaves is
reported by both modes. -/
theorem claim_C6_witness :
    (⟨[], Status.changed, ["2"]⟩ : RLine).status ≠ Status.unchanged ∧
    ((⟨[], Status.changed, ["2"]⟩ : RLine) ∈ show_cfg_diff w3a w3b [] false false false ↔
     (⟨[], Status.changed, ["2"]⟩ : RLine) ∈ show_cfg_diff w3a w3b [] false false true) :=
  ⟨by decide, claim_C6 w3a w3b [] false false ⟨[], Status.changed, ["2"]⟩ (by decide)⟩

/-- Claim C7: every operation, seen as a state transformer over its input
trees, returns the trees exactly as given — no mutation of values,
children, comments or flags, so the same tree may be reused across
comparisons. -/
theorem claim_C7 (st : CfgNode × CfgNode) (t : CfgNode) (cur p : List String)
    (sd hs cd sc : Bool) :
    (runShowCfgDiff st cur sd hs cd).2 = st ∧ (runShowCfg t sd hs).2 = t ∧
    (runShowCmdsDiff st).2 = st ∧ (runShowCmds t).2 = t ∧
    (runGetCmdsDiff st).2 = st ∧ (runGetCmds t).2 = t ∧
    (runShowConfig st p sd hs cd sc).2 = st :=
  ⟨rfl, rfl, rfl, rfl, rfl, rfl, rfl⟩

/-- Claim C8: at a path present in both well-formed trees, the diff holds
the recursive comparison of the two matched nodes; value equality is
decided by the set of values, so value lists that are permutations of
each other (with equal comment and deactivation state) compare Unchanged;
and the recorded remove and add value lists hold exactly the symmetric
difference of the two value sets. -/
theorem claim_C8 (a b x y : CfgNode) (P : List String)
    (ha : wf a = true) (hb : wf b = true)
    (hx : nodeAt a P = some x) (hy : nodeAt b P = some y) :
    findD (diffNodes a b) P = some (diffNodes x y) ∧
    (x.values.Perm y.values → x.comment = y.comment → x.deact = y.deact →
      dStatus (diffNodes x y) = .unchanged) ∧
    ∀ v, (v ∈ dRemove (diffNodes x y) ↔ v ∈ x.values ∧ v ∉ y.values) ∧
         (v ∈ dAdd (diffNodes x y) ↔ v ∈ y.values ∧ v ∉ x.values) := by
  refine ⟨findD_matched P a b x y ha hb hx hy, ?_, ?_⟩
  · intro hperm hcm hdeact
    have hle : leafEq x y = true := by
      rw [leafEq, Bool.and_eq_true, Bool.and_eq_true]
      exact ⟨⟨valsEq_of_perm hperm, by simp [hcm]⟩, by simp [hdeact]⟩
    rw [dStatus_diffNodes, if_pos hle]
  · intro v
    rw [dRemove_diffNodes, dAdd_diffNodes]
    constructor <;> · rw [List.mem_filter]; simp

/-- Claim C8, witness at the value lists of the §3 example. -/
theorem claim_C8_witness :
    wf w8a = true ∧ wf w8b = true ∧
    nodeAt w8a [] = some w8a ∧ nodeAt w8b [] = some w8b ∧
    (findD (diffNodes w8a w8b) [] = some (diffNodes w8a w8b) ∧
     (w8a.values.Perm w8b.values → w8a.comment = w8b.comment → w8a.deact = w8b.deact →
       dStatus (diffNodes w8a w8b) = .unchanged) ∧
     ∀ v, (v ∈ dRemove (diffNodes w8a w8b) ↔ v ∈ w8a.values ∧ v ∉ w8b.values) ∧
          (v ∈ dAdd (diffNodes w8a w8b) ↔ v ∈ w8b.values ∧ v ∉ w8a.values)) :=
  ⟨by decide, by decide, rfl, rfl,
    claim_C8 w8a w8b w8a w8b [] (by decide) (by decide) rfl rfl⟩

/-- Claim C9: at a path present in both well-formed trees, a node that is
deactivated in one tree and active in the other is classified Changed by
the diff, whatever its values, comment and children. -/
theorem claim_C9 (a b x y : CfgNode) (P : List String)
    (ha : wf a = true) (hb : wf b = true)
    (hx : nodeAt a P = some x) (hy : nodeAt b P = some y)
    (hdeact : x.deact ≠ y.deact) :
    findD (diffNodes a b) P = some (diffNodes x y) ∧
    dStatus (diffNodes x y) = .changed := by
  refine ⟨findD_matched P a b x y ha hb hx hy, ?_⟩
  have hle : leafEq x y = false := by
    rw [leafEq]
    have hd : (x.deact == y.deact) = false := by
      simp [hdeact]
    rw [hd, Bool.and_false]
  rw [dStatus_diffNodes, hle]
  rfl

/-- Claim C9, witness at two concrete trees differing only in the
deactivation flag. -/
theorem claim_C9_witness :
    wf cxA = true ∧ wf cxB = true ∧
    nodeAt cxA [] = some cxA ∧ nodeAt cxB [] = some cxB ∧
    cxA.deact ≠ cxB.deact ∧
    (findD (diffNodes cxA cxB) [] = some (diffNodes cxA cxB) ∧
     dStatus (diffNodes cxA cxB) = .changed) :=
  ⟨by decide, by decide, rfl, rfl, by decide,
    claim_C9 cxA cxB cxA cxB [] (by decide) (by decide) rfl rfl (by decide)⟩

/-- Claim C10: calling show_cfg_diff, show_cfg or showConfig with the
optional arguments omitted equals the explicit call with show_def, hide_secret,
context_diff and show_cmds all false; the default showConfig output is
diff text of the full-tree renderer with defaults suppressed, and with
hide_secret false the redaction step passes values through unchanged. -/
theorem claim_C10 (a b t : CfgNode) (p cur : List String) :
    showConfigDefault a b p = showConfig a b p false false false false ∧
    show_cfg_diffDefault a b cur = show_cfg_diff a b cur false false false ∧
    show_cfgDefault t = show_cfg t false false ∧
    headerDefaults = (false, false, false, false) ∧
    showConfigDefault a b p =
      .text (renderFull false false p (diffNodes ((nodeAt a p).getD (emptyNode ""))
        ((nodeAt b p).getD (emptyNode "")))) ∧
    ∀ s vs, redact false s vs = vs :=
  ⟨rfl, rfl, rfl, rfl, rfl, fun _ _ => rfl⟩

end Cnode
